import Mathlib

/-!
Verification of the `rtk` output-compaction engine (`src/cargo_cmd.rs`,
`src/ls.rs`).

The Rust code is shallowly embedded at the level of Unicode scalar values: a
string is a `List Char`, a raw tool output is a `List Char`, and the Rust
iteration `output.lines()` is modelled by `rustLines` (split on `'\n'`, no
final empty line, one trailing `'\r'` stripped per line — the semantics of
Rust's `str::lines`).  Rust's `trim`/`trim_start` are modelled with ASCII
whitespace, which coincides with Rust's behaviour on ASCII tool output.

Multi-line issue blocks are kept as `List (List Char)` (one entry per line) in
the classifier state and joined with `'\n'` at render time; the Rust source
joins at push time and renders the joined string verbatim, which is
observationally the same.

The lint and listing renderers iterate a `HashMap`, whose iteration order is
unspecified in Rust; the corresponding Lean functions take that iteration
order as an explicit argument `pi`, constrained in the theorems to be a
permutation of the insertion-ordered association list built by the classifier.
-/

abbrev L := List Char

def ofStr (s : String) : L := s.data

def isWs (c : Char) : Bool := c = ' ' || c = '\t' || c = '\r' || c = '\n'

/-- Model of Rust `str::trim_start`. -/
def trimStartF (l : L) : L := l.dropWhile isWs

/-- Model of Rust `str::trim_end`. -/
def trimEndF (l : L) : L := l.rdropWhile isWs

/-- Model of Rust `str::trim`. -/
def trimF (l : L) : L := trimEndF (trimStartF l)

/-- `hasSub p s` = the pattern `p` occurs as a contiguous substring of `s`
(model of Rust `str::contains`). -/
def hasSub (p : L) : L → Bool
  | [] => p.isEmpty
  | c :: t => p.isPrefixOf (c :: t) || hasSub p t

/-- Split on `'\n'`; always returns one more chunk than there are newlines. -/
def splitNl : L → List L
  | [] => [[]]
  | c :: t =>
    if c = '\n' then [] :: splitNl t
    else
      match splitNl t with
      | [] => [[c]]
      | h :: r => (c :: h) :: r

/-- Strip one trailing `'\r'` (as Rust `str::lines` does per line). -/
def stripCr (l : L) : L := if l.getLast? = some '\r' then l.dropLast else l

/-- Model of Rust `str::lines`. -/
def rustLines (s : L) : List L :=
  let cs := splitNl s
  (if cs.getLast? = some [] then cs.dropLast else cs).map stripCr

/-- `Vec::join(sep)`: interleave a separator between the elements. -/
def joinSep (sep : L) : List L → L
  | [] => []
  | [x] => x
  | x :: y :: r => x ++ sep ++ joinSep sep (y :: r)

def joinNl (ls : List L) : L := joinSep ['\n'] ls

/-- Concatenation of `line ++ "\n"` pieces, used to describe rendered output. -/
def unlines (ls : List L) : L := (ls.map (fun l => l ++ ['\n'])).flatten

def digitChar (n : Nat) : Char := Char.ofNat (48 + n)

def decimalCore : Nat → Nat → L
  | 0, _ => []
  | fuel + 1, n =>
    if n < 10 then [digitChar n] else decimalCore fuel (n / 10) ++ [digitChar (n % 10)]

/-- Decimal rendering of a natural number (model of Rust `{}` on an integer). -/
def decimal (n : Nat) : L := decimalCore (n + 1) n

def compilingS : L := ofStr "Compiling"
def downloadingS : L := ofStr "Downloading"
def downloadedS : L := ofStr "Downloaded"
def finishedS : L := ofStr "Finished"
def checkingS : L := ofStr "Checking"
def errBrS : L := ofStr "error["
def errColonS : L := ofStr "error:"
def warnColonS : L := ofStr "warning:"
def warnBrS : L := ofStr "warning["
def abortingS : L := ofStr "aborting due to"
def couldNotS : L := ofStr "could not compile"
def generatedS : L := ofStr "generated"
def warningS : L := ofStr "warning"
def errorS : L := ofStr "error"
def runningS : L := ofStr "running "
def testWordS : L := ofStr "test "
def okSufS : L := ofStr "... ok"
def failuresColonS : L := ofStr "failures:"
def testResultS : L := ofStr "test result:"
def indentS : L := ofStr "    "
def dashHeadS : L := ofStr "---- "
def arrowS : L := ofStr "--> "
def totalS : L := ofStr "total "

/-- The 39-`═` separator line used by all three cargo renderers. -/
def sepLineS : L := List.replicate 39 '═' ++ ['\n']

/-! ## `filter_cargo_build` (src/cargo_cmd.rs lines 118-206) -/

structure BuildSt where
  errors : List (List L)
  warnings : Nat
  errorCount : Nat
  compiled : Nat
  inError : Bool
  currentError : List L
deriving DecidableEq, Repr

def buildInit : BuildSt := ⟨[], 0, 0, 0, false, []⟩

/-- One iteration of the line loop of `filter_cargo_build`. -/
def buildStep (st : BuildSt) (line : L) : BuildSt :=
  if compilingS.isPrefixOf (trimStartF line) then
    { st with compiled := st.compiled + 1 }
  else if downloadingS.isPrefixOf (trimStartF line)
      || downloadedS.isPrefixOf (trimStartF line) then st
  else if finishedS.isPrefixOf (trimStartF line) then st
  else if errBrS.isPrefixOf line || errColonS.isPrefixOf line then
    if hasSub abortingS line || hasSub couldNotS line then st
    else
      let st1 :=
        if st.inError ∧ st.currentError ≠ [] then
          { st with errors := st.errors ++ [st.currentError], currentError := [] }
        else st
      { st1 with
        errorCount := st1.errorCount + 1, inError := true,
        currentError := st1.currentError ++ [line] }
  else if warnColonS.isPrefixOf line && hasSub generatedS line && hasSub warningS line then st
  else if warnColonS.isPrefixOf line || warnBrS.isPrefixOf line then
    let st1 :=
      if st.inError ∧ st.currentError ≠ [] then
        { st with errors := st.errors ++ [st.currentError], currentError := [] }
      else st
    { st1 with
      warnings := st1.warnings + 1, inError := true,
      currentError := st1.currentError ++ [line] }
  else if st.inError then
    if (trimF line).isEmpty ∧ 3 < st.currentError.length then
      { st with errors := st.errors ++ [st.currentError], currentError := [], inError := false }
    else { st with currentError := st.currentError ++ [line] }
  else st

def buildClassify (out : L) : BuildSt := (rustLines out).foldl buildStep buildInit

/-- Trailing open block flushed unconditionally after the loop. -/
def buildFinal (st : BuildSt) : List (List L) :=
  if st.currentError ≠ [] then st.errors ++ [st.currentError] else st.errors

def buildBlocks (out : L) : List (List L) := buildFinal (buildClassify out)

def buildHeader (st : BuildSt) : L :=
  ofStr "cargo build: " ++ decimal st.errorCount ++ ofStr " errors, "
    ++ decimal st.warnings ++ ofStr " warnings (" ++ decimal st.compiled
    ++ ofStr " crates)" ++ ['\n']

/-- The `enumerate().take(15)` render loop; `total` is the full block count
(used by the `i < errors.len() - 1` separator test). -/
def buildBodyAux : List (List L) → Nat → Nat → L
  | [], _, _ => []
  | b :: rest, i, total =>
    joinNl b ++ ['\n'] ++ (if i < total - 1 then ['\n'] else [])
      ++ buildBodyAux rest (i + 1) total

def buildBody (blocks : List (List L)) (total : Nat) : L :=
  buildBodyAux (blocks.take 15) 0 total

def buildOverflow (n : Nat) : L :=
  if 15 < n then ['\n'] ++ ofStr "... +" ++ decimal (n - 15) ++ ofStr " more issues" ++ ['\n']
  else []

def buildSuccess (compiled : Nat) : L :=
  ofStr "✓ cargo build (" ++ decimal compiled ++ ofStr " crates compiled)"

def filter_cargo_build (out : L) : L :=
  let st := buildClassify out
  let blocks := buildFinal st
  if st.errorCount = 0 ∧ st.warnings = 0 then buildSuccess st.compiled
  else
    trimF (buildHeader st ++ sepLineS ++ buildBody blocks blocks.length
      ++ buildOverflow blocks.length)

/-- A raw line that the build classifier counts as an error or warning issue
marker (reaches the `error_count += 1` or `warnings += 1` branch). -/
def isBuildIssueMarker (l : L) : Bool :=
  ((errBrS.isPrefixOf l || errColonS.isPrefixOf l)
      && !(hasSub abortingS l || hasSub couldNotS l))
  || (!(warnColonS.isPrefixOf l && hasSub generatedS l && hasSub warningS l)
      && (warnColonS.isPrefixOf l || warnBrS.isPrefixOf l))

def compiledCount (out : L) : Nat :=
  ((rustLines out).filter fun l => compilingS.isPrefixOf (trimStartF l)).length

/-! ## `filter_cargo_test` (src/cargo_cmd.rs lines 209-298) -/

structure TestSt where
  failures : List (List L)
  summaryLines : List L
  inFailureSection : Bool
  currentFailure : List L
deriving DecidableEq, Repr

def testInit : TestSt := ⟨[], [], false, []⟩

/-- The `if in_failure_section { ... }` statement of the loop body. -/
def testSectionStep (st : TestSt) (line : L) : TestSt :=
  if st.inFailureSection then
    if testResultS.isPrefixOf line then
      { st with inFailureSection := false, summaryLines := st.summaryLines ++ [line] }
    else if indentS.isPrefixOf line || dashHeadS.isPrefixOf line then
      { st with currentFailure := st.currentFailure ++ [line] }
    else if (trimF line).isEmpty ∧ st.currentFailure ≠ [] then
      { st with failures := st.failures ++ [st.currentFailure], currentFailure := [] }
    else if ¬(trimF line).isEmpty then
      { st with currentFailure := st.currentFailure ++ [line] }
    else st
  else st

/-- One iteration of the line loop of `filter_cargo_test`.  Note that the
source has two consecutive `if` statements: the failure-section handler can
push a `test result:` line and clear the section flag, after which the final
`if !in_failure_section && line.starts_with("test result:")` fires again on
the same line. -/
def testStep (st : TestSt) (line : L) : TestSt :=
  if compilingS.isPrefixOf (trimStartF line) || downloadingS.isPrefixOf (trimStartF line)
      || downloadedS.isPrefixOf (trimStartF line)
      || finishedS.isPrefixOf (trimStartF line) then st
  else if runningS.isPrefixOf line
      || (testWordS.isPrefixOf line && okSufS.isSuffixOf line) then st
  else if line = failuresColonS then { st with inFailureSection := true }
  else
    if ¬(testSectionStep st line).inFailureSection ∧ testResultS.isPrefixOf line then
      ⟨(testSectionStep st line).failures, (testSectionStep st line).summaryLines ++ [line],
        (testSectionStep st line).inFailureSection, (testSectionStep st line).currentFailure⟩
    else testSectionStep st line

def testClassify (out : L) : TestSt := (rustLines out).foldl testStep testInit

/-- Trailing open failure flushed after the loop. -/
def testFinal (st : TestSt) : List (List L) :=
  if st.currentFailure ≠ [] then st.failures ++ [st.currentFailure] else st.failures

/-- Modelled from the spec: the repository's `utils::truncate` helper is not
under src/ (only its call site is); per the spec each failure body is
"truncated to a fixed character budget (200)", so the model truncates to the
first `n` characters. -/
def truncateB (s : L) (n : Nat) : L := if s.length ≤ n then s else s.take n

/-- The `enumerate().take(10)` failure render loop. -/
def testBodyAux : List (List L) → Nat → L
  | [], _ => []
  | f :: r, i =>
    decimal (i + 1) ++ ofStr ". " ++ truncateB (joinNl f) 200 ++ ['\n'] ++ testBodyAux r (i + 1)

/-- The fallback filter: non-blank lines not starting (after leading
whitespace) with "Compiling". -/
def testMeaningful (out : L) : List L :=
  (rustLines out).filter fun l =>
    ¬(trimF l).isEmpty ∧ ¬compilingS.isPrefixOf (trimStartF l)

/-- `iter().rev().take(n).rev()`: the last `n` elements, in order. -/
def lastN (n : Nat) (xs : List L) : List L := xs.drop (xs.length - n)

def fallbackLines (out : L) : L := unlines (lastN 5 (testMeaningful out))

def testFailuresRender (fs : List (List L)) : L :=
  ofStr "FAILURES (" ++ decimal fs.length ++ ofStr "):" ++ ['\n'] ++ sepLineS
    ++ testBodyAux (fs.take 10) 0
    ++ (if 10 < fs.length then
          ['\n'] ++ ofStr "... +" ++ decimal (fs.length - 10) ++ ofStr " more failures" ++ ['\n']
        else [])
    ++ ['\n']

def filter_cargo_test (out : L) : L :=
  let st := testClassify out
  let fs := testFinal st
  if fs = [] ∧ st.summaryLines ≠ [] then
    trimF (unlines (st.summaryLines.map fun l => ofStr "✓ " ++ l))
  else
    let r1 := (if fs ≠ [] then testFailuresRender fs else [])
      ++ unlines st.summaryLines
    let r2 := if trimF r1 = [] then r1 ++ fallbackLines out else r1
    trimF r2

/-! ## `filter_cargo_clippy` (src/cargo_cmd.rs lines 301-394)

`by_rule` is a `HashMap` in the source; it is modelled as an association list
in first-insertion order, and the renderer additionally receives the map's
iteration order `pi` as an argument (constrained to a permutation of the
association list in the theorems), because Rust's `HashMap` iteration order
is unspecified.  The slice `line[bracket_start + 1..bracket_end]` panics when
the last `]` precedes the last `[`; this is modelled by `Option` (`none` =
panic). -/

structure ClippySt where
  byRule : List (L × List L)
  errorCount : Nat
  warningCount : Nat
  currentRule : L
deriving DecidableEq, Repr

def clippyInit : ClippySt := ⟨[], 0, 0, []⟩

def rfindIdx (c : Char) : L → Option Nat
  | [] => none
  | a :: t =>
    match rfindIdx c t with
    | some i => some (i + 1)
    | none => if a = c then some 0 else none

def sliceL (l : L) (a b : Nat) : L := (l.drop a).take (b - a)

def stripPrefixOr (p l : L) : L := if p.isPrefixOf l then l.drop p.length else l

/-- The `current_rule` extraction from a marker line; `none` models the Rust
slice panic when the last `]` sits before the last `[`. -/
def extractRule (line : L) (isErr : Bool) : Option L :=
  match rfindIdx '[' line with
  | some bs =>
    match rfindIdx ']' line with
    | some be => if bs + 1 ≤ be then some (sliceL line (bs + 1) be) else none
    | none => some line
  | none => some (stripPrefixOr (if isErr then ofStr "error: " else ofStr "warning: ") line)

/-- Model of Rust `str::trim_start_matches("--> ")` (fuelled repetition). -/
def stripAllPref (p : L) : Nat → L → L
  | 0, l => l
  | fuel + 1, l =>
    if p.isPrefixOf l ∧ p ≠ ([] : L) then stripAllPref p fuel (l.drop p.length) else l

def stripArrows (l : L) : L := stripAllPref arrowS l.length l

/-- `by_rule.entry(k).or_default().push(v)` on the insertion-ordered model. -/
def assocPush (m : List (L × List L)) (k : L) (v : L) : List (L × List L) :=
  match m with
  | [] => [(k, [v])]
  | (k', vs) :: r => if k' = k then (k', vs ++ [v]) :: r else (k', vs) :: assocPush r k v

def clippyStep (st : ClippySt) (line : L) : Option ClippySt :=
  if compilingS.isPrefixOf (trimStartF line) || checkingS.isPrefixOf (trimStartF line)
      || downloadingS.isPrefixOf (trimStartF line) || downloadedS.isPrefixOf (trimStartF line)
      || finishedS.isPrefixOf (trimStartF line) then some st
  else if (warnColonS.isPrefixOf line || warnBrS.isPrefixOf line)
      || (errColonS.isPrefixOf line || errBrS.isPrefixOf line) then
    if hasSub generatedS line ∧ hasSub warningS line then some st
    else if hasSub abortingS line ∨ hasSub couldNotS line then some st
    else
      let isErr := errorS.isPrefixOf line
      match extractRule line isErr with
      | none => none
      | some r =>
        if isErr then some { st with errorCount := st.errorCount + 1, currentRule := r }
        else some { st with warningCount := st.warningCount + 1, currentRule := r }
  else if arrowS.isPrefixOf (trimStartF line) then
    if st.currentRule ≠ [] then
      some { st with byRule := assocPush st.byRule st.currentRule (stripArrows (trimStartF line)) }
    else some st
  else some st

def clippyClassify (out : L) : Option ClippySt :=
  (rustLines out).foldl (fun acc line => acc.bind fun st => clippyStep st line) (some clippyInit)

/-- Ordered insertion placing `x` before the first element it compares
less-or-equal to; ties keep the earlier element first. -/
def sinsert {α : Type} (le : α → α → Bool) (x : α) : List α → List α
  | [] => [x]
  | y :: ys => if le x y then x :: y :: ys else y :: sinsert le x ys

/-- Stable insertion sort.  Rust's `sort_by` is a stable sort, and a stable
sort by a total preorder has a unique result, so this models it faithfully
while remaining structurally recursive (kernel-evaluable). -/
def ssort {α : Type} (le : α → α → Bool) : List α → List α
  | [] => []
  | x :: xs => sinsert le x (ssort le xs)

/-- The comparator `|a, b| b.1.len().cmp(&a.1.len())`: non-increasing count. -/
def clippyLe (a b : L × List L) : Bool := b.2.length ≤ a.2.length

/-- Rust's stable `sort_by`, applied to the map iteration order. -/
def clippySort (m : List (L × List L)) : List (L × List L) := ssort clippyLe m

def clippyGroupBody : List (L × List L) → L
  | [] => []
  | (rule, locs) :: r =>
    ofStr "  " ++ rule ++ ofStr " (" ++ decimal locs.length ++ ofStr "x)" ++ ['\n']
      ++ ((locs.take 3).map fun loc => ofStr "    " ++ loc ++ ['\n']).flatten
      ++ (if 3 < locs.length then
            ofStr "    ... +" ++ decimal (locs.length - 3) ++ ofStr " more" ++ ['\n']
          else [])
      ++ clippyGroupBody r

def clippyHeader (st : ClippySt) : L :=
  ofStr "cargo clippy: " ++ decimal st.errorCount ++ ofStr " errors, "
    ++ decimal st.warningCount ++ ofStr " warnings" ++ ['\n']

def clippyOverflow (n : Nat) : L :=
  if 15 < n then ['\n'] ++ ofStr "... +" ++ decimal (n - 15) ++ ofStr " more rules" ++ ['\n']
  else []

def filter_cargo_clippy (out : L) (pi : List (L × List L)) : Option L :=
  match clippyClassify out with
  | none => none
  | some st =>
    if st.errorCount = 0 ∧ st.warningCount = 0 then
      some (ofStr "✓ cargo clippy: No issues found")
    else
      some (trimF (clippyHeader st ++ sepLineS ++ clippyGroupBody ((clippySort pi).take 15)
        ++ clippyOverflow st.byRule.length))

/-! ## `filter_ls_output` / `generate_summary` (src/ls.rs)

`by_ext` is again a `HashMap`; same modelling as for clippy. -/

def NOISE_DIRS : List L :=
  [ofStr "node_modules", ofStr ".git", ofStr "target", ofStr "__pycache__",
   ofStr ".next", ofStr "dist", ofStr "build", ofStr ".cache", ofStr ".turbo",
   ofStr ".vercel", ofStr ".pytest_cache", ofStr ".mypy_cache", ofStr ".tox",
   ofStr ".venv", ofStr "venv", ofStr "env", ofStr ".env", ofStr "coverage",
   ofStr ".nyc_output", ofStr ".DS_Store", ofStr "Thumbs.db", ofStr ".idea",
   ofStr ".vscode", ofStr ".vs", ofStr "*.egg-info", ofStr ".eggs"]

def lsKeepF (showAll : Bool) (line : L) : Bool :=
  if totalS.isPrefixOf line then false
  else if showAll then true
  else
    !(NOISE_DIRS.any fun noise =>
      noise.isSuffixOf (trimF line) || hasSub (' ' :: noise) (trimF line))

def lsKept (raw : L) (showAll : Bool) : List L := (rustLines raw).filter (lsKeepF showAll)

structure SumSt where
  byExt : List (L × Nat)
  files : Nat
  dirs : Nat
deriving DecidableEq, Repr

def sumInit : SumSt := ⟨[], 0, 0⟩

/-- Model of Rust `str::split_whitespace`. -/
def splitWsAux : L → L → List L
  | [], acc => if acc = ([] : L) then [] else [acc.reverse]
  | c :: t, acc =>
    if isWs c then
      (if acc = ([] : L) then splitWsAux t [] else acc.reverse :: splitWsAux t [])
    else splitWsAux t (c :: acc)

def splitWsF (l : L) : List L := splitWsAux l []

def joinSp (ls : List L) : L := joinSep [' '] ls

def noExtS : L := ofStr "no ext"

def extOf (filename : L) : L :=
  match rfindIdx '.' filename with
  | some pos => filename.drop pos
  | none => noExtS

def assocInc (m : List (L × Nat)) (k : L) : List (L × Nat) :=
  match m with
  | [] => [(k, 1)]
  | (k', n) :: r => if k' = k then (k', n + 1) :: r else (k', n) :: assocInc r k

def sumStep (st : SumSt) (line : L) : SumSt :=
  match splitWsF line with
  | [] => st
  | p0 :: _ =>
    if ['d'].isPrefixOf p0 then { st with dirs := st.dirs + 1 }
    else if ¬['-'].isPrefixOf p0 then st
    else if (splitWsF line).length < 9 then st
    else
      { st with
        byExt := assocInc st.byExt (extOf (joinSp ((splitWsF line).drop 8))),
        files := st.files + 1 }

def sumClassify (lines : List L) : SumSt := lines.foldl sumStep sumInit

/-- The comparator `|a, b| b.1.cmp(a.1)` on counts: non-increasing. -/
def sumLe (a b : L × Nat) : Bool := b.2 ≤ a.2

def joinCommaSp (ls : List L) : L := joinSep (ofStr ", ") ls

def extSection (ec : List (L × Nat)) : L :=
  if ec ≠ [] then
    ofStr " (" ++ joinCommaSp ((ec.take 5).map fun p => decimal p.2 ++ [' '] ++ p.1)
      ++ (if 5 < ec.length then ofStr ", +" ++ decimal (ec.length - 5) ++ ofStr " more" else [])
      ++ [')']
  else []

def generate_summary (lines : List L) (pi : List (L × Nat)) : L :=
  let st := sumClassify lines
  if st.files = 0 ∧ st.dirs = 0 then []
  else
    ofStr "📊 " ++ decimal st.files ++ ofStr " files"
      ++ (if 0 < st.dirs then ofStr ", " ++ decimal st.dirs ++ ofStr " dirs" else [])
      ++ extSection (ssort sumLe pi)

def filter_ls_output (raw : L) (showAll : Bool) (pi : List (L × Nat)) : L :=
  let lines := lsKept raw showAll
  if lines = [] then ['\n']
  else
    joinNl lines
      ++ (if generate_summary lines pi ≠ [] then
            ['\n', '\n'] ++ generate_summary lines pi
          else [])
      ++ ['\n']

/-! ## Auxiliary specification-side definitions -/

/-- A line that the build/test classifiers treat as a tool-progress banner
(leading whitespace ignored, as the source checks `trim_start()`). -/
def isProgHead (l : L) : Bool :=
  compilingS.isPrefixOf (trimStartF l) || downloadingS.isPrefixOf (trimStartF l)
    || downloadedS.isPrefixOf (trimStartF l) || finishedS.isPrefixOf (trimStartF l)

/-- Sum of the per-rule location counts of the grouping map. -/
def ruleLocSum (m : List (L × List L)) : Nat := (m.map fun g => g.2.length).sum

/-- Independent tally of the lint classifier: tracks only whether a current
rule is active and how many `--> ` location lines were attributed to a rule.
Used to state what the per-rule counts actually sum to. -/
def clippyTallyStep (p : Bool × Nat) (line : L) : Option (Bool × Nat) :=
  if compilingS.isPrefixOf (trimStartF line) || checkingS.isPrefixOf (trimStartF line)
      || downloadingS.isPrefixOf (trimStartF line) || downloadedS.isPrefixOf (trimStartF line)
      || finishedS.isPrefixOf (trimStartF line) then some p
  else if (warnColonS.isPrefixOf line || warnBrS.isPrefixOf line)
      || (errColonS.isPrefixOf line || errBrS.isPrefixOf line) then
    if hasSub generatedS line ∧ hasSub warningS line then some p
    else if hasSub abortingS line ∨ hasSub couldNotS line then some p
    else
      match extractRule line (errorS.isPrefixOf line) with
      | none => none
      | some r => some (!r.isEmpty, p.2)
  else if arrowS.isPrefixOf (trimStartF line) then
    if p.1 then some (p.1, p.2 + 1) else some p
  else some p

def clippyLocTally (out : L) : Option (Bool × Nat) :=
  (rustLines out).foldl (fun acc line => acc.bind fun p => clippyTallyStep p line)
    (some (false, 0))

/-- "Not a tool-progress banner line" (build/test token set). -/
def goodB (l : L) : Bool := !isProgHead l

/-- "Not a line starting (after leading whitespace) with `Compiling`". -/
def goodT (l : L) : Bool := !(compilingS.isPrefixOf (trimStartF l))

/-! ## Basic lemmas about the string model -/

theorem isPrefixOf_eq_true_iff {p l : L} : p.isPrefixOf l = true ↔ p <+: l :=
  List.isPrefixOf_iff_prefix

theorem isPrefixOf_false_of_head_ne {p l : L} {a b : Char} (hp : p.head? = some a)
    (hl : l.head? = some b) (h : a ≠ b) : p.isPrefixOf l = false := by
  cases p with
  | nil => simp at hp
  | cons x p' =>
    cases l with
    | nil => simp at hl
    | cons y l' =>
      simp only [List.head?_cons, Option.some.injEq] at hp hl
      subst hp; subst hl
      simp [List.isPrefixOf, h]

theorem allWs_of_prefixOf {p l : L} (h : p.isPrefixOf l = true)
    (hl : ∀ c ∈ l, isWs c = true) : ∀ c ∈ p, isWs c = true := by
  intro c hc
  exact hl c (List.IsPrefix.subset (isPrefixOf_eq_true_iff.mp h) hc)

theorem trimStartF_cons_ws {a : Char} {l : L} (h : isWs a = true) :
    trimStartF (a :: l) = trimStartF l := by
  simp [trimStartF, List.dropWhile_cons, h]

theorem trimStartF_cons_not_ws {a : Char} {l : L} (h : isWs a = false) :
    trimStartF (a :: l) = a :: l := by
  simp [trimStartF, List.dropWhile_cons, h]

theorem trimStartF_eq_nil_iff {l : L} : trimStartF l = [] ↔ ∀ c ∈ l, isWs c = true := by
  simp [trimStartF, List.dropWhile_eq_nil_iff]

theorem trimF_isEmpty_iff {l : L} : (trimF l).isEmpty = true ↔ ∀ c ∈ l, isWs c = true := by
  rw [List.isEmpty_iff]
  constructor
  · intro h
    have h1 : ∀ c ∈ trimStartF l, isWs c = true := by
      have := List.rdropWhile_eq_nil_iff.mp h
      exact this
    have h2 : trimStartF l = [] := trimStartF_eq_nil_iff.mpr ?_
    · exact trimStartF_eq_nil_iff.mp h2
    · intro c hc
      rcases List.mem_append.mp
        (by rw [List.takeWhile_append_dropWhile] at *; exact hc :
          c ∈ (l.takeWhile isWs ++ l.dropWhile isWs)) with h3 | h3
      · exact List.mem_takeWhile_imp h3
      · exact h1 c h3
  · intro h
    have : trimStartF l = [] := trimStartF_eq_nil_iff.mpr h
    simp [trimF, this, trimEndF, List.rdropWhile]

theorem trimStartF_prefix_mono : ∀ {l' l : L}, l' <+: l → trimStartF l' <+: trimStartF l := by
  intro l'
  induction l' with
  | nil => intro l _; simp [trimStartF]
  | cons a t ih =>
    intro l h
    cases l with
    | nil => simp [List.prefix_nil] at h
    | cons b t2 =>
      rw [List.cons_prefix_cons] at h
      obtain ⟨rfl, ht⟩ := h
      by_cases hws : isWs a = true
      · rw [trimStartF_cons_ws hws, trimStartF_cons_ws hws]
        exact ih ht
      · rw [trimStartF_cons_not_ws (by simpa using hws),
            trimStartF_cons_not_ws (by simpa using hws)]
        exact List.cons_prefix_cons.mpr ⟨rfl, ht⟩

theorem trimStartF_idem (l : L) : trimStartF (trimStartF l) = trimStartF l := by
  induction l with
  | nil => rfl
  | cons a t ih =>
    by_cases h : isWs a = true
    · rw [trimStartF_cons_ws h]; exact ih
    · rw [trimStartF_cons_not_ws (by simpa using h),
          trimStartF_cons_not_ws (by simpa using h)]

theorem splitNl_ne_nil : ∀ s : L, splitNl s ≠ [] := by
  intro s
  cases s with
  | nil => simp [splitNl]
  | cons c t =>
    simp only [splitNl]
    split
    · simp
    · cases h : splitNl t <;> simp

theorem splitNl_cons_nl (t : L) : splitNl ('\n' :: t) = [] :: splitNl t := by
  simp [splitNl]

theorem splitNl_cons_of {c : Char} {t : L} {h0 : L} {r : List L} (hc : ¬c = '\n')
    (h : splitNl t = h0 :: r) : splitNl (c :: t) = (c :: h0) :: r := by
  simp [splitNl, hc, h]

theorem splitNl_no_nl : ∀ (s : L), ∀ c ∈ splitNl s, '\n' ∉ c := by
  intro s
  induction s with
  | nil => intro c hc; simp [splitNl] at hc; simp [hc]
  | cons a t ih =>
    intro c hc
    by_cases ha : a = '\n'
    · subst ha
      rw [splitNl_cons_nl, List.mem_cons] at hc
      rcases hc with rfl | hc
      · simp
      · exact ih c hc
    · cases h : splitNl t with
      | nil => exact absurd h (splitNl_ne_nil t)
      | cons h0 r =>
        rw [splitNl_cons_of ha h, List.mem_cons] at hc
        rcases hc with rfl | hc2
        · intro hmem
          rcases List.mem_cons.mp hmem with h1 | h1
          · exact ha h1.symm
          · exact ih h0 (h ▸ List.mem_cons_self h0 r) h1
        · exact ih c (h ▸ List.mem_cons_of_mem h0 hc2)

theorem splitNl_of_no_nl {u : L} (h : '\n' ∉ u) : splitNl u = [u] := by
  induction u with
  | nil => rfl
  | cons a t ih =>
    have ha : ¬a = '\n' := fun hh => h (hh ▸ List.mem_cons_self a t)
    have ht : '\n' ∉ t := fun hh => h (List.mem_cons_of_mem a hh)
    simp only [splitNl, if_neg ha, ih ht]

theorem splitNl_append_nl : ∀ (a u : L), splitNl (a ++ '\n' :: u) = splitNl a ++ splitNl u := by
  intro a u
  induction a with
  | nil => simp [splitNl_cons_nl, splitNl]
  | cons c a' ih =>
    by_cases hc : c = '\n'
    · subst hc
      rw [List.cons_append, splitNl_cons_nl, splitNl_cons_nl, ih, List.cons_append]
    · cases h : splitNl a' with
      | nil => exact absurd h (splitNl_ne_nil a')
      | cons h0 r =>
        rw [List.cons_append,
          splitNl_cons_of hc (by rw [ih, h]; rfl), splitNl_cons_of hc h]
        simp

theorem exists_first_nl : ∀ {u : L}, '\n' ∈ u → ∃ a b, u = a ++ '\n' :: b ∧ '\n' ∉ a := by
  intro u
  induction u with
  | nil => intro h; simp at h
  | cons c u' ih =>
    intro h
    by_cases hc : c = '\n'
    · exact ⟨[], u', by simp [hc], by simp⟩
    · have : '\n' ∈ u' := by
        rcases List.mem_cons.mp h with h1 | h1
        · exact absurd h1.symm hc
        · exact h1
      obtain ⟨a, b, rfl, hna⟩ := ih this
      exact ⟨c :: a, b, by simp, by
        intro hm
        rcases List.mem_cons.mp hm with h2 | h2
        · exact hc h2.symm
        · exact hna h2⟩

theorem chunks_pref_aux : ∀ (n : Nat) (t rest : L), t.length ≤ n →
    ∀ c ∈ splitNl t, ∃ c' ∈ splitNl (t ++ rest), c <+: c' := by
  intro n
  induction n with
  | zero =>
    intro t rest ht c hc
    have : t = [] := List.length_eq_zero.mp (Nat.le_antisymm ht (Nat.zero_le _))
    subst this
    simp only [splitNl, List.mem_singleton] at hc
    subst hc
    exact ⟨(splitNl rest).head (splitNl_ne_nil rest),
      by simp only [List.nil_append]; exact List.head_mem (splitNl_ne_nil rest),
      List.nil_prefix⟩
  | succ n ih =>
    intro t rest ht c hc
    by_cases hnl : '\n' ∈ t
    · obtain ⟨a, b, rfl, hna⟩ := exists_first_nl hnl
      rw [splitNl_append_nl, splitNl_of_no_nl hna] at hc
      have hs : (a ++ '\n' :: b) ++ rest = a ++ '\n' :: (b ++ rest) := by simp
      rw [hs, splitNl_append_nl, splitNl_of_no_nl hna]
      rcases List.mem_cons.mp hc with rfl | hc2
      · exact ⟨c, List.mem_cons_self _ _, List.prefix_refl _⟩
      · have hb : b.length ≤ n := by
          have := ht
          simp only [List.length_append, List.length_cons] at this
          omega
        obtain ⟨c', hc', hpre⟩ := ih b rest hb c hc2
        exact ⟨c', List.mem_cons_of_mem _ hc', hpre⟩
    · rw [splitNl_of_no_nl hnl, List.mem_singleton] at hc
      subst hc
      by_cases hr : '\n' ∈ rest
      · obtain ⟨a, b, rfl, hna⟩ := exists_first_nl hr
        have hs : c ++ (a ++ '\n' :: b) = (c ++ a) ++ '\n' :: b := by simp
        rw [hs, splitNl_append_nl, splitNl_of_no_nl (by
          intro hm
          rcases List.mem_append.mp hm with h1 | h1
          · exact hnl h1
          · exact hna h1)]
        exact ⟨c ++ a, List.mem_cons_self _ _, List.prefix_append c a⟩
      · have : '\n' ∉ c ++ rest := by
          intro hm
          rcases List.mem_append.mp hm with h1 | h1
          · exact hnl h1
          · exact hr h1
        rw [splitNl_of_no_nl this]
        exact ⟨c ++ rest, List.mem_singleton.mpr rfl, List.prefix_append c rest⟩

theorem chunks_pref {t s : L} (h : t <+: s) :
    ∀ c ∈ splitNl t, ∃ c' ∈ splitNl s, c <+: c' := by
  obtain ⟨rest, rfl⟩ := h
  exact chunks_pref_aux t.length t rest (Nat.le_refl _)

theorem stripCr_pref (l : L) : stripCr l <+: l := by
  unfold stripCr
  split
  · exact List.dropLast_prefix l
  · exact List.prefix_refl l

theorem mem_rustLines {x s : L} (h : x ∈ rustLines s) : ∃ c ∈ splitNl s, x = stripCr c := by
  unfold rustLines at h
  simp only [List.mem_map] at h
  obtain ⟨c, hc, rfl⟩ := h
  refine ⟨c, ?_, rfl⟩
  by_cases hl : (splitNl s).getLast? = some ([] : L)
  · rw [if_pos hl] at hc
    exact (List.dropLast_prefix (splitNl s)).subset hc
  · rw [if_neg hl] at hc
    exact hc

theorem rustLines_no_nl {s x : L} (h : x ∈ rustLines s) : '\n' ∉ x := by
  obtain ⟨c, hc, rfl⟩ := mem_rustLines h
  intro hmem
  exact splitNl_no_nl s c hc ((stripCr_pref c).subset hmem)

theorem chunksGood_trimStart (good : L → Bool)
    (hws : ∀ (a : Char) (l : L), isWs a = true → good (a :: l) = good l) :
    ∀ s : L, (∀ c ∈ splitNl s, good c = true) → ∀ c ∈ splitNl (trimStartF s), good c = true := by
  intro s
  induction s with
  | nil => intro h c hc; exact h c hc
  | cons a t ih =>
    intro h c hc
    by_cases ha : isWs a = true
    · rw [trimStartF_cons_ws ha] at hc
      apply ih _ c hc
      intro c' hc'
      by_cases hnl : a = '\n'
      · exact h c' (by rw [hnl, splitNl_cons_nl]; exact List.mem_cons_of_mem _ hc')
      · cases hsp : splitNl t with
        | nil => exact absurd hsp (splitNl_ne_nil t)
        | cons h0 r =>
          rw [hsp] at hc'
          rcases List.mem_cons.mp hc' with rfl | hmem
          · have hgood := h (a :: c')
              (by rw [splitNl_cons_of hnl hsp]; exact List.mem_cons_self _ _)
            rw [hws a c' ha] at hgood
            exact hgood
          · exact h c' (by rw [splitNl_cons_of hnl hsp]; exact List.mem_cons_of_mem _ hmem)
    · rw [trimStartF_cons_not_ws (by simpa using ha)] at hc
      exact h c hc

theorem chunksGood_rustLines_trim (good : L → Bool)
    (hpre : ∀ l' l : L, l' <+: l → good l = true → good l' = true)
    (hws : ∀ (a : Char) (l : L), isWs a = true → good (a :: l) = good l)
    (s : L) (hs : ∀ c ∈ splitNl s, good c = true) :
    ∀ x ∈ rustLines (trimF s), good x = true := by
  intro x hx
  have h1 : ∀ c ∈ splitNl (trimStartF s), good c = true := chunksGood_trimStart good hws s hs
  have h2 : trimF s <+: trimStartF s := List.rdropWhile_prefix _ _
  have h3 : ∀ c ∈ splitNl (trimF s), good c = true := by
    intro c hc
    obtain ⟨c', hc', hp⟩ := chunks_pref h2 c hc
    exact hpre c c' hp (h1 c' hc')
  obtain ⟨c, hc, rfl⟩ := mem_rustLines hx
  exact hpre _ c (stripCr_pref c) (h3 c hc)

theorem trimF_nil : trimF [] = [] := rfl

theorem head?_eq_of_isPrefixOf {p l : L} {c : Char} (h : p.isPrefixOf l = true)
    (hp : p.head? = some c) : l.head? = some c := by
  obtain ⟨r, rfl⟩ := isPrefixOf_eq_true_iff.mp h
  cases p with
  | nil => simp at hp
  | cons x p' => simpa using hp

theorem isPrefixOf_false_of_allWs {p line : L} (hp : ¬∀ c ∈ p, isWs c = true)
    (h : ∀ c ∈ line, isWs c = true) : p.isPrefixOf line = false := by
  by_cases hb : p.isPrefixOf line = true
  · exact absurd (allWs_of_prefixOf hb h) hp
  · exact Bool.eq_false_iff.mpr hb

/-! ## Claim C1 -/

/-- Claim C1: a `test result:` line is captured as exactly one summary line,
whether it appears inside or outside the failures section.  This FAILS on the
code: when such a line arrives inside the failures section, the section
handler pushes it and clears the flag, after which the unconditional
`if !in_failure_section && line.starts_with("test result:")` pushes the same
line a second time, so the rendered output repeats the summary line. -/
theorem c1_test_result_duplicated :
    (testClassify (ofStr "failures:\ntest result: ok. 0 passed")).summaryLines
      = [ofStr "test result: ok. 0 passed", ofStr "test result: ok. 0 passed"]
    ∧ filter_cargo_test (ofStr "failures:\ntest result: ok. 0 passed")
      = ofStr "✓ test result: ok. 0 passed\n✓ test result: ok. 0 passed" := by
  constructor
  · decide
  · decide

/-! ## Claim C2 -/

/-- Claim C2 (counterexample): the renderer is claimed never to produce empty
output, but for an input consisting of a single `Compiling` progress line the
classifier finds neither failures nor summary lines and the fallback filter
(which keeps only non-blank lines not starting with `Compiling`) keeps
nothing, so the output is empty. -/
theorem c2_counterexample : filter_cargo_test (ofStr "Compiling foo") = [] := by decide

/-- Claim C2 (amended): when the classifier finds neither failures nor summary
lines, the output is exactly the trimmed join of the last 5 non-blank lines
that do not start (after leading whitespace) with `Compiling`; this can be
empty, so the output is not always non-empty. -/
theorem c2_fallback (out : L)
    (h1 : testFinal (testClassify out) = [])
    (h2 : (testClassify out).summaryLines = []) :
    filter_cargo_test out = trimF (fallbackLines out) := by
  simp [filter_cargo_test, h1, h2, unlines, trimF_nil]

/-- Witness for `c2_fallback` at a concrete garbled input. -/
theorem c2_fallback_witness :
    testFinal (testClassify (ofStr "Finished dev")) = []
    ∧ (testClassify (ofStr "Finished dev")).summaryLines = []
    ∧ filter_cargo_test (ofStr "Finished dev") = trimF (fallbackLines (ofStr "Finished dev")) :=
  ⟨by decide, by decide, c2_fallback _ (by decide) (by decide)⟩

theorem buildStep_blank {st : BuildSt} {line : L} (hb : (trimF line).isEmpty = true)
    (hin : st.inError = true) :
    buildStep st line =
      if (trimF line).isEmpty ∧ 3 < st.currentError.length then
        { st with errors := st.errors ++ [st.currentError], currentError := [], inError := false }
      else { st with currentError := st.currentError ++ [line] } := by
  have hws : ∀ c ∈ line, isWs c = true := trimF_isEmpty_iff.mp hb
  have hts : trimStartF line = [] := trimStartF_eq_nil_iff.mpr hws
  have h1 : compilingS.isPrefixOf (trimStartF line) = false := by rw [hts]; decide
  have h2 : downloadingS.isPrefixOf (trimStartF line) = false := by rw [hts]; decide
  have h2b : downloadedS.isPrefixOf (trimStartF line) = false := by rw [hts]; decide
  have h3 : finishedS.isPrefixOf (trimStartF line) = false := by rw [hts]; decide
  have h4 : errBrS.isPrefixOf line = false :=
    isPrefixOf_false_of_allWs (by decide) hws
  have h5 : errColonS.isPrefixOf line = false :=
    isPrefixOf_false_of_allWs (by decide) hws
  have h6 : warnColonS.isPrefixOf line = false :=
    isPrefixOf_false_of_allWs (by decide) hws
  have h7 : warnBrS.isPrefixOf line = false :=
    isPrefixOf_false_of_allWs (by decide) hws
  unfold buildStep
  simp only [h1, h2, h2b, h3, h4, h5, h6, h7, hin, Bool.or_self, Bool.false_and,
    Bool.false_or, Bool.or_false, Bool.false_eq_true, if_false, if_true]

theorem bor_true {a b : Bool} (h : (a || b) = true) : a = true ∨ b = true := by
  rcases a <;> rcases b <;> simp_all

theorem band_true {a b : Bool} (h : (a && b) = true) : a = true ∧ b = true := by
  rcases a <;> rcases b <;> simp_all

theorem bnot_true {a : Bool} (h : (!a) = true) : a = false := by
  rcases a <;> simp_all

theorem buildStep_marker {st : BuildSt} {line : L} (hm : isBuildIssueMarker line = true)
    (hin : st.inError = true) (hcur : st.currentError ≠ []) :
    (buildStep st line).errors = st.errors ++ [st.currentError]
    ∧ (buildStep st line).currentError = [line] := by
  have hm2 : ((errBrS.isPrefixOf line || errColonS.isPrefixOf line) = true
        ∧ (hasSub abortingS line || hasSub couldNotS line) = false)
      ∨ ((warnColonS.isPrefixOf line && hasSub generatedS line && hasSub warningS line) = false
        ∧ (warnColonS.isPrefixOf line || warnBrS.isPrefixOf line) = true) := by
    have h := hm
    unfold isBuildIssueMarker at h
    rcases bor_true h with h1 | h1
    · obtain ⟨ha, hb⟩ := band_true h1
      exact Or.inl ⟨ha, bnot_true hb⟩
    · obtain ⟨ha, hb⟩ := band_true h1
      exact Or.inr ⟨bnot_true ha, hb⟩
  rcases hm2 with ⟨h1, h2⟩ | ⟨h2, h1⟩
  · have hhead : line.head? = some 'e' := by
      rcases bor_true h1 with h | h
      · exact head?_eq_of_isPrefixOf h (show errBrS.head? = some 'e' by decide)
      · exact head?_eq_of_isPrefixOf h (show errColonS.head? = some 'e' by decide)
    obtain ⟨t, rfl⟩ : ∃ t, line = 'e' :: t := by
      cases line with
      | nil => simp at hhead
      | cons a t => exact ⟨t, by simp at hhead; rw [hhead]⟩
    have hts : trimStartF ('e' :: t) = 'e' :: t := trimStartF_cons_not_ws (by decide)
    have hp1 : compilingS.isPrefixOf (trimStartF ('e' :: t)) = false := by
      rw [hts]
      exact isPrefixOf_false_of_head_ne (show compilingS.head? = some 'C' by decide)
        (show (('e' :: t) : L).head? = some 'e' from rfl) (by decide)
    have hp2 : downloadingS.isPrefixOf (trimStartF ('e' :: t)) = false := by
      rw [hts]
      exact isPrefixOf_false_of_head_ne (show downloadingS.head? = some 'D' by decide)
        (show (('e' :: t) : L).head? = some 'e' from rfl) (by decide)
    have hp2b : downloadedS.isPrefixOf (trimStartF ('e' :: t)) = false := by
      rw [hts]
      exact isPrefixOf_false_of_head_ne (show downloadedS.head? = some 'D' by decide)
        (show (('e' :: t) : L).head? = some 'e' from rfl) (by decide)
    have hp3 : finishedS.isPrefixOf (trimStartF ('e' :: t)) = false := by
      rw [hts]
      exact isPrefixOf_false_of_head_ne (show finishedS.head? = some 'F' by decide)
        (show (('e' :: t) : L).head? = some 'e' from rfl) (by decide)
    unfold buildStep
    simp only [hp1, hp2, hp2b, hp3, h1, h2, Bool.or_self, Bool.false_eq_true, if_false,
      if_true, Bool.true_eq_false]
    rw [if_pos ⟨hin, hcur⟩]
    simp
  · have hhead : line.head? = some 'w' := by
      rcases bor_true h1 with h | h
      · exact head?_eq_of_isPrefixOf h (show warnColonS.head? = some 'w' by decide)
      · exact head?_eq_of_isPrefixOf h (show warnBrS.head? = some 'w' by decide)
    obtain ⟨t, rfl⟩ : ∃ t, line = 'w' :: t := by
      cases line with
      | nil => simp at hhead
      | cons a t => exact ⟨t, by simp at hhead; rw [hhead]⟩
    have hts : trimStartF ('w' :: t) = 'w' :: t := trimStartF_cons_not_ws (by decide)
    have hp1 : compilingS.isPrefixOf (trimStartF ('w' :: t)) = false := by
      rw [hts]
      exact isPrefixOf_false_of_head_ne (show compilingS.head? = some 'C' by decide)
        (show (('w' :: t) : L).head? = some 'w' from rfl) (by decide)
    have hp2 : downloadingS.isPrefixOf (trimStartF ('w' :: t)) = false := by
      rw [hts]
      exact isPrefixOf_false_of_head_ne (show downloadingS.head? = some 'D' by decide)
        (show (('w' :: t) : L).head? = some 'w' from rfl) (by decide)
    have hp2b : downloadedS.isPrefixOf (trimStartF ('w' :: t)) = false := by
      rw [hts]
      exact isPrefixOf_false_of_head_ne (show downloadedS.head? = some 'D' by decide)
        (show (('w' :: t) : L).head? = some 'w' from rfl) (by decide)
    have hp3 : finishedS.isPrefixOf (trimStartF ('w' :: t)) = false := by
      rw [hts]
      exact isPrefixOf_false_of_head_ne (show finishedS.head? = some 'F' by decide)
        (show (('w' :: t) : L).head? = some 'w' from rfl) (by decide)
    have hp4 : errBrS.isPrefixOf ('w' :: t) = false :=
      isPrefixOf_false_of_head_ne (show errBrS.head? = some 'e' by decide)
        (show (('w' :: t) : L).head? = some 'w' from rfl) (by decide)
    have hp5 : errColonS.isPrefixOf ('w' :: t) = false :=
      isPrefixOf_false_of_head_ne (show errColonS.head? = some 'e' by decide)
        (show (('w' :: t) : L).head? = some 'w' from rfl) (by decide)
    unfold buildStep
    simp only [hp1, hp2, hp2b, hp3, hp4, hp5, h1, h2, Bool.or_self, Bool.false_eq_true,
      if_false, if_true, Bool.true_eq_false]
    rw [if_pos ⟨hin, hcur⟩]
    simp

/-! ## Claim C5 -/

/-- Claim C5: inside an issue block, a blank line closes the block only when
the block already holds more than 3 lines (otherwise the blank line is
accumulated); a new error/warning issue marker closes and flushes the open
block and starts a new one containing only the marker line; and a block still
open at end of input is flushed unconditionally by the final flush. -/
theorem c5_block_boundaries :
    (∀ (st : BuildSt) (line : L), st.inError = true → (trimF line).isEmpty = true →
      3 < st.currentError.length →
      buildStep st line
        = ⟨st.errors ++ [st.currentError], st.warnings, st.errorCount, st.compiled,
            false, []⟩)
    ∧ (∀ (st : BuildSt) (line : L), st.inError = true → (trimF line).isEmpty = true →
      st.currentError.length ≤ 3 →
      buildStep st line
        = ⟨st.errors, st.warnings, st.errorCount, st.compiled, st.inError,
            st.currentError ++ [line]⟩)
    ∧ (∀ (st : BuildSt) (line : L), isBuildIssueMarker line = true → st.inError = true →
      st.currentError ≠ [] →
      (buildStep st line).errors = st.errors ++ [st.currentError]
        ∧ (buildStep st line).currentError = [line])
    ∧ (∀ st : BuildSt, st.currentError ≠ [] → buildFinal st = st.errors ++ [st.currentError]) := by
  refine ⟨?_, ?_, ?_, ?_⟩
  · intro st line hin hb hlen
    rw [buildStep_blank hb hin, if_pos ⟨hb, hlen⟩]
  · intro st line hin hb hlen
    rw [buildStep_blank hb hin, if_neg (by intro h2; omega)]
  · intro st line hm hin hcur
    exact buildStep_marker hm hin hcur
  · intro st hcur
    rw [buildFinal, if_pos hcur]

/-- Witness for `c5_block_boundaries` at concrete states and lines. -/
theorem c5_block_boundaries_witness :
    buildStep ⟨[], 0, 1, 0, true, [ofStr "error: a", ofStr "b", ofStr "c", ofStr "d"]⟩ (ofStr " ")
      = ⟨[[ofStr "error: a", ofStr "b", ofStr "c", ofStr "d"]], 0, 1, 0, false, []⟩
    ∧ buildStep ⟨[], 0, 1, 0, true, [ofStr "error: a"]⟩ (ofStr " ")
      = ⟨[], 0, 1, 0, true, [ofStr "error: a", ofStr " "]⟩
    ∧ (buildStep ⟨[], 0, 1, 0, true, [ofStr "error: a"]⟩ (ofStr "warning: w")).errors
        = [[ofStr "error: a"]]
      ∧ (buildStep ⟨[], 0, 1, 0, true, [ofStr "error: a"]⟩ (ofStr "warning: w")).currentError
        = [ofStr "warning: w"]
    ∧ buildFinal ⟨[], 0, 1, 0, true, [ofStr "error: a"]⟩ = [[ofStr "error: a"]] := by
  refine ⟨?_, ?_, ?_, ?_, ?_⟩
  · have h := c5_block_boundaries.1 ⟨[], 0, 1, 0, true,
      [ofStr "error: a", ofStr "b", ofStr "c", ofStr "d"]⟩ (ofStr " ")
      (by decide) (by decide) (by decide)
    exact h
  · have h := c5_block_boundaries.2.1 ⟨[], 0, 1, 0, true, [ofStr "error: a"]⟩ (ofStr " ")
      (by decide) (by decide) (by decide)
    exact h
  · have h := c5_block_boundaries.2.2.1 ⟨[], 0, 1, 0, true, [ofStr "error: a"]⟩
      (ofStr "warning: w") (by decide) (by decide) (by decide)
    exact h.1
  · have h := c5_block_boundaries.2.2.1 ⟨[], 0, 1, 0, true, [ofStr "error: a"]⟩
      (ofStr "warning: w") (by decide) (by decide) (by decide)
    exact h.2
  · have h := c5_block_boundaries.2.2.2 ⟨[], 0, 1, 0, true, [ofStr "error: a"]⟩ (by decide)
    exact h

theorem buildStep_clean {line : L} (hm : isBuildIssueMarker line = false) (n : Nat) :
    buildStep ⟨[], 0, 0, n, false, []⟩ line
      = ⟨[], 0, 0, n + (if compilingS.isPrefixOf (trimStartF line) = true then 1 else 0),
          false, []⟩ := by
  unfold buildStep
  by_cases h1 : compilingS.isPrefixOf (trimStartF line) = true
  · simp [h1]
  · have h1' : compilingS.isPrefixOf (trimStartF line) = false := Bool.eq_false_iff.mpr h1
    simp only [h1', Bool.false_eq_true, if_false]
    by_cases h2 : (downloadingS.isPrefixOf (trimStartF line)
        || downloadedS.isPrefixOf (trimStartF line)) = true
    · simp [h2]
    · simp only [Bool.eq_false_iff.mpr h2, Bool.false_eq_true, if_false]
      by_cases h3 : finishedS.isPrefixOf (trimStartF line) = true
      · simp [h3]
      · simp only [Bool.eq_false_iff.mpr h3, Bool.false_eq_true, if_false]
        by_cases h4 : (errBrS.isPrefixOf line || errColonS.isPrefixOf line) = true
        · by_cases h5 : (hasSub abortingS line || hasSub couldNotS line) = true
          · simp [h4, h5]
          · exfalso
            have : isBuildIssueMarker line = true := by
              unfold isBuildIssueMarker
              rw [h4, Bool.eq_false_iff.mpr h5]
              simp
            rw [hm] at this
            exact Bool.false_ne_true this
        · simp only [Bool.eq_false_iff.mpr h4, Bool.false_eq_true, if_false]
          by_cases h6 : (warnColonS.isPrefixOf line && hasSub generatedS line
              && hasSub warningS line) = true
          · simp [h6]
          · simp only [Bool.eq_false_iff.mpr h6, Bool.false_eq_true, if_false]
            by_cases h7 : (warnColonS.isPrefixOf line || warnBrS.isPrefixOf line) = true
            · exfalso
              have : isBuildIssueMarker line = true := by
                unfold isBuildIssueMarker
                rw [h7, Bool.eq_false_iff.mpr h6]
                simp
              rw [hm] at this
              exact Bool.false_ne_true this
            · simp [Bool.eq_false_iff.mpr h7]

theorem buildFold_clean : ∀ (ls : List L), (∀ l ∈ ls, isBuildIssueMarker l = false) → ∀ n : Nat,
    ls.foldl buildStep ⟨[], 0, 0, n, false, []⟩
      = ⟨[], 0, 0, n + (ls.filter fun l => compilingS.isPrefixOf (trimStartF l)).length,
          false, []⟩ := by
  intro ls
  induction ls with
  | nil => intro _ n; simp
  | cons l t ih =>
    intro h n
    rw [List.foldl_cons, buildStep_clean (h l (List.mem_cons_self l t)) n,
      ih (fun x hx => h x (List.mem_cons_of_mem l hx)) _]
    have he : n + (if compilingS.isPrefixOf (trimStartF l) = true then 1 else 0)
        + (t.filter fun x => compilingS.isPrefixOf (trimStartF x)).length
        = n + ((l :: t).filter fun x => compilingS.isPrefixOf (trimStartF x)).length := by
      by_cases hc : compilingS.isPrefixOf (trimStartF l) = true
      · simp [List.filter_cons, hc]
        omega
      · simp [List.filter_cons, Bool.eq_false_iff.mpr hc]
    rw [he]

/-! ## Claim C3 -/

/-- Claim C3: for every build output with zero recognized error/warning issue
markers, `filter_cargo_build` returns exactly the one-line success summary
carrying the compiled-unit count; in particular, for three `Compiling` lines
plus one `Finished` line the output is exactly `✓ cargo build (3 crates
compiled)`. -/
theorem c3_build_success :
    (∀ out : L, (∀ l ∈ rustLines out, isBuildIssueMarker l = false) →
      filter_cargo_build out = buildSuccess (compiledCount out))
    ∧ filter_cargo_build (ofStr "   Compiling libc v0.2.153\n   Compiling cfg-if v1.0.0\n   Compiling rtk v0.5.0\n    Finished dev [unoptimized + debuginfo] target(s) in 15.23s\n")
      = ofStr "✓ cargo build (3 crates compiled)" := by
  constructor
  · intro out h
    have hc : buildClassify out = ⟨[], 0, 0, compiledCount out, false, []⟩ := by
      unfold buildClassify buildInit compiledCount
      rw [buildFold_clean (rustLines out) h 0]
      simp
    simp only [filter_cargo_build]
    rw [hc]
    rfl
  · decide

/-- Witness for the universally quantified part of `c3_build_success`. -/
theorem c3_build_success_witness :
    (∀ l ∈ rustLines (ofStr "   Compiling a\n"), isBuildIssueMarker l = false)
    ∧ filter_cargo_build (ofStr "   Compiling a\n")
      = buildSuccess (compiledCount (ofStr "   Compiling a\n")) :=
  ⟨by decide, c3_build_success.1 _ (by decide)⟩

theorem buildStep_inv {st : BuildSt} {line : L}
    (h : st.errorCount = 0 ∧ st.warnings = 0 →
      st.inError = false ∧ st.errors = [] ∧ st.currentError = []) :
    (buildStep st line).errorCount = 0 ∧ (buildStep st line).warnings = 0 →
      (buildStep st line).inError = false ∧ (buildStep st line).errors = []
        ∧ (buildStep st line).currentError = [] := by
  unfold buildStep
  split
  · intro hh; exact h hh
  · split
    · intro hh; exact h hh
    · split
      · intro hh; exact h hh
      · split
        · split
          · intro hh; exact h hh
          · intro hh
            exact absurd hh.1 (by simp)
        · split
          · intro hh; exact h hh
          · split
            · intro hh
              exact absurd hh.2 (by simp)
            · split
              · rename_i hin
                split
                · intro hh
                  exact absurd ((h hh).1) (by rw [hin]; simp)
                · intro hh
                  exact absurd ((h hh).1) (by rw [hin]; simp)
              · intro hh; exact h hh

theorem buildFold_inv (ls : List L) : ∀ st : BuildSt,
    (st.errorCount = 0 ∧ st.warnings = 0 →
      st.inError = false ∧ st.errors = [] ∧ st.currentError = []) →
    ((ls.foldl buildStep st).errorCount = 0 ∧ (ls.foldl buildStep st).warnings = 0 →
      (ls.foldl buildStep st).inError = false ∧ (ls.foldl buildStep st).errors = []
        ∧ (ls.foldl buildStep st).currentError = []) := by
  induction ls with
  | nil => intro st h; exact h
  | cons l t ih =>
    intro st h
    rw [List.foldl_cons]
    exact ih (buildStep st l) (buildStep_inv h)

theorem buildBlocks_ne_nil_counts {out : L} (h : buildBlocks out ≠ []) :
    ¬((buildClassify out).errorCount = 0 ∧ (buildClassify out).warnings = 0) := by
  intro hc
  have hinv : (buildClassify out).inError = false ∧ (buildClassify out).errors = []
      ∧ (buildClassify out).currentError = [] :=
    buildFold_inv (rustLines out) buildInit (by intro _; exact ⟨rfl, rfl, rfl⟩) hc
  apply h
  unfold buildBlocks buildFinal
  rw [if_neg (by rw [hinv.2.2]; simp), hinv.2.1]

/-! ## Claim C4 -/

/-- Claim C4: when the classifier produces N > 0 issue blocks, the rendered
output is the trimmed concatenation of the count header, the separator, the
bodies of exactly the first `min(N,15)` blocks, and an overflow component
that is present (stating `N - 15`) precisely when `N > 15`. -/
theorem c4_issue_blocks (out : L) (h : 0 < (buildBlocks out).length) :
    filter_cargo_build out
      = trimF (buildHeader (buildClassify out) ++ sepLineS
          ++ buildBody (buildBlocks out) (buildBlocks out).length
          ++ buildOverflow (buildBlocks out).length)
    ∧ ((buildBlocks out).take 15).length = min (buildBlocks out).length 15
    ∧ (buildOverflow (buildBlocks out).length ≠ [] ↔ 15 < (buildBlocks out).length) := by
  have hne : buildBlocks out ≠ [] := by
    intro hh
    rw [hh] at h
    simp at h
  refine ⟨?_, ?_, ?_⟩
  · simp only [filter_cargo_build]
    rw [if_neg (buildBlocks_ne_nil_counts hne)]
    rfl
  · simp [List.length_take, Nat.min_comm]
  · unfold buildOverflow
    by_cases h15 : 15 < (buildBlocks out).length
    · simp [h15]
    · simp [h15]

/-- Witness for `c4_issue_blocks` at a one-error build output. -/
theorem c4_issue_blocks_witness :
    0 < (buildBlocks (ofStr "error: boom")).length
    ∧ (filter_cargo_build (ofStr "error: boom")
        = trimF (buildHeader (buildClassify (ofStr "error: boom")) ++ sepLineS
            ++ buildBody (buildBlocks (ofStr "error: boom"))
              (buildBlocks (ofStr "error: boom")).length
            ++ buildOverflow (buildBlocks (ofStr "error: boom")).length)
      ∧ ((buildBlocks (ofStr "error: boom")).take 15).length
          = min (buildBlocks (ofStr "error: boom")).length 15
      ∧ (buildOverflow (buildBlocks (ofStr "error: boom")).length ≠ []
          ↔ 15 < (buildBlocks (ofStr "error: boom")).length)) :=
  ⟨by decide, c4_issue_blocks _ (by decide)⟩

/-! ## Claim C7 -/

/-- Claim C7 (counterexample): dropping is claimed to happen exactly on an
exact trailing-entry-name match against the denylist, but the code drops any
line whose trimmed text merely *ends with* a noise name: the line `mytarget`
(entry name `mytarget`, not a denylisted name) is dropped because it ends
with `target`, leaving the empty rendering `"\n"`. -/
theorem c7_counterexample :
    filter_ls_output (ofStr "mytarget") false [] = ['\n']
    ∧ (ofStr "mytarget") ∉ NOISE_DIRS
    ∧ trimF (ofStr "mytarget") = ofStr "mytarget" :=
  ⟨by decide, by decide, by decide⟩

/-- Claim C7 (amended): without show-all, a listing line is dropped exactly
when its trimmed text ends with a denylisted noise name or contains a space
followed by one (so kept lines never suffix-match the denylist), and with
show-all every line except the `total ` header is kept. -/
theorem c7_filtering (raw : L) :
    (∀ l ∈ lsKept raw false, totalS.isPrefixOf l = false
      ∧ (NOISE_DIRS.any fun noise =>
          noise.isSuffixOf (trimF l) || hasSub (' ' :: noise) (trimF l)) = false)
    ∧ lsKept raw true = (rustLines raw).filter fun l => !totalS.isPrefixOf l := by
  constructor
  · intro l hl
    have hk := List.of_mem_filter hl
    unfold lsKeepF at hk
    by_cases ht : totalS.isPrefixOf l = true
    · rw [if_pos ht] at hk
      exact absurd hk (by simp)
    · have ht' : totalS.isPrefixOf l = false := Bool.eq_false_iff.mpr ht
      refine ⟨ht', ?_⟩
      rw [if_neg ht] at hk
      simp only [Bool.false_eq_true, if_false] at hk
      exact bnot_true hk
  · apply List.filter_congr
    intro l _
    unfold lsKeepF
    by_cases ht : totalS.isPrefixOf l = true
    · simp [ht]
    · simp [Bool.eq_false_iff.mpr ht]

/-- Witness for `c7_filtering`: a kept line of a concrete listing. -/
theorem c7_filtering_witness :
    totalS.isPrefixOf (ofStr "-rw- 1 u s 1 J 1 12:00 src") = false
    ∧ (NOISE_DIRS.any fun noise =>
        noise.isSuffixOf (trimF (ofStr "-rw- 1 u s 1 J 1 12:00 src"))
          || hasSub (' ' :: noise) (trimF (ofStr "-rw- 1 u s 1 J 1 12:00 src"))) = false :=
  (c7_filtering (ofStr "total 4\n-rw- 1 u s 1 J 1 12:00 src")).1 _ (by decide)

theorem sinsert_perm {α : Type} (le : α → α → Bool) (x : α) (l : List α) :
    (sinsert le x l).Perm (x :: l) := by
  induction l with
  | nil => exact List.Perm.refl _
  | cons y ys ih =>
    unfold sinsert
    split
    · exact List.Perm.refl _
    · exact (List.Perm.cons y ih).trans (List.Perm.swap x y ys)

theorem ssort_perm {α : Type} (le : α → α → Bool) (l : List α) : (ssort le l).Perm l := by
  induction l with
  | nil => exact List.Perm.refl _
  | cons x xs ih => exact (sinsert_perm le x (ssort le xs)).trans (List.Perm.cons x ih)

theorem mem_sinsert {α : Type} {le : α → α → Bool} {x z : α} {l : List α} :
    z ∈ sinsert le x l ↔ z = x ∨ z ∈ l :=
  (sinsert_perm le x l).mem_iff.trans List.mem_cons

theorem sinsert_sorted {α : Type} (le : α → α → Bool)
    (htot : ∀ a b, (le a b || le b a) = true)
    (htrans : ∀ a b c, le a b = true → le b c = true → le a c = true)
    {x : α} {l : List α} (hl : l.Pairwise (fun a b => le a b = true)) :
    (sinsert le x l).Pairwise (fun a b => le a b = true) := by
  induction l with
  | nil => simp [sinsert]
  | cons y ys ih =>
    rw [List.pairwise_cons] at hl
    obtain ⟨hy, hys⟩ := hl
    unfold sinsert
    split
    · rename_i hxy
      rw [List.pairwise_cons]
      refine ⟨?_, List.pairwise_cons.mpr ⟨hy, hys⟩⟩
      intro z hz
      rcases List.mem_cons.mp hz with rfl | hz2
      · exact hxy
      · exact htrans x y z hxy (hy z hz2)
    · rename_i hxy
      have hyx : le y x = true := by
        rcases bor_true (htot x y) with h | h
        · exact absurd h hxy
        · exact h
      rw [List.pairwise_cons]
      refine ⟨?_, ih hys⟩
      intro z hz
      rcases mem_sinsert.mp hz with rfl | hz2
      · exact hyx
      · exact hy z hz2

theorem ssort_sorted {α : Type} (le : α → α → Bool)
    (htot : ∀ a b, (le a b || le b a) = true)
    (htrans : ∀ a b c, le a b = true → le b c = true → le a c = true)
    (l : List α) : (ssort le l).Pairwise (fun a b => le a b = true) := by
  induction l with
  | nil => simp [ssort]
  | cons x xs ih => exact sinsert_sorted le htot htrans ih

theorem assocInc_sum (m : List (L × Nat)) (k : L) :
    ((assocInc m k).map Prod.snd).sum = (m.map Prod.snd).sum + 1 := by
  induction m with
  | nil => simp [assocInc]
  | cons p r ih =>
    obtain ⟨k', n⟩ := p
    unfold assocInc
    by_cases hk : k' = k
    · simp [hk]
      omega
    · simp [hk, ih]
      omega

theorem sumStep_inv {st : SumSt} (h : (st.byExt.map Prod.snd).sum = st.files) (line : L) :
    ((sumStep st line).byExt.map Prod.snd).sum = (sumStep st line).files := by
  unfold sumStep
  cases hp : splitWsF line with
  | nil => exact h
  | cons p0 rest =>
    split
    · exact h
    · split
      · exact h
      · split
        · exact h
        · split
          · exact h
          · simp [assocInc_sum, h]

theorem sumClassify_sum (lines : List L) :
    ((sumClassify lines).byExt.map Prod.snd).sum = (sumClassify lines).files := by
  unfold sumClassify
  generalize hst : sumInit = st0
  have h0 : (st0.byExt.map Prod.snd).sum = st0.files := by rw [← hst]; rfl
  clear hst
  induction lines generalizing st0 with
  | nil => exact h0
  | cons l t ih =>
    rw [List.foldl_cons]
    exact ih (sumStep st0 l) (sumStep_inv h0 l)

/-! ## Claim C8 -/

/-- Claim C8 (counterexample): the summary is claimed to report the total
regular-file count for every non-empty filtered listing, but a line whose
type indicator is `-` (a regular file) yet has fewer than 9 whitespace
fields is not counted at all, and when nothing is counted no summary is
appended: the single-line listing `-abc` renders as `-abc\n` with no summary. -/
theorem c8_counterexample :
    filter_ls_output (ofStr "-abc") false [] = ofStr "-abc" ++ ['\n']
    ∧ ['-'].isPrefixOf (ofStr "-abc") = true
    ∧ generate_summary (lsKept (ofStr "-abc") false) [] = [] :=
  ⟨by decide, by decide, by decide⟩

/-- Claim C8 (amended): the summary counts a line as a regular file only when
its first whitespace field starts with `-` and the line has at least 9
fields, and as a directory when the first field starts with `d`; a summary is
produced iff at least one file or directory was counted, and then consists of
the file count, the directory count when nonzero, and the extension section
built from the map order `pi` sorted stably by non-increasing count (taking 5
groups, with overflow iff more than 5 extension groups exist); the per-group
counts over the whole map sum to the file count; a filename with no dot falls
into the `no ext` bucket; lines that are neither counted files nor
directories leave the summary state unchanged. -/
theorem c8_summary (lines : List L) (pi : List (L × Nat))
    (hperm : pi.Perm (sumClassify lines).byExt) :
    (generate_summary lines pi = []
      ↔ (sumClassify lines).files = 0 ∧ (sumClassify lines).dirs = 0)
    ∧ (¬((sumClassify lines).files = 0 ∧ (sumClassify lines).dirs = 0) →
      generate_summary lines pi
        = ofStr "📊 " ++ decimal (sumClassify lines).files ++ ofStr " files"
          ++ (if 0 < (sumClassify lines).dirs then
                ofStr ", " ++ decimal (sumClassify lines).dirs ++ ofStr " dirs"
              else [])
          ++ extSection (ssort sumLe pi))
    ∧ (pi.map Prod.snd).sum = (sumClassify lines).files
    ∧ (ssort sumLe pi).Pairwise (fun a b => sumLe a b = true)
    ∧ ((ssort sumLe pi).take 5).length = min pi.length 5
    ∧ (5 < (ssort sumLe pi).length ↔ 5 < pi.length)
    ∧ (∀ name : L, rfindIdx '.' name = none → extOf name = noExtS)
    ∧ (∀ (st : SumSt) (l : L) (p0 : L) (rest : List L), splitWsF l = p0 :: rest →
        ['d'].isPrefixOf p0 = false → ['-'].isPrefixOf p0 = false → sumStep st l = st) := by
  have hlen : (ssort sumLe pi).length = pi.length :=
    (ssort_perm sumLe pi).length_eq
  refine ⟨?_, ?_, ?_, ?_, ?_, ?_, ?_, ?_⟩
  · unfold generate_summary
    by_cases hc : (sumClassify lines).files = 0 ∧ (sumClassify lines).dirs = 0
    · simp [hc]
    · rw [if_neg hc]
      constructor
      · intro hh
        have hl := congrArg List.length hh
        simp only [List.length_append, List.length_nil] at hl
        have h2 : (ofStr "📊 " : L).length = 2 := by decide
        omega
      · intro hh
        exact absurd hh hc
  · intro hc
    unfold generate_summary
    rw [if_neg hc]
  · calc (pi.map Prod.snd).sum
        = (((sumClassify lines).byExt).map Prod.snd).sum := (hperm.map Prod.snd).sum_eq
      _ = (sumClassify lines).files := sumClassify_sum lines
  · exact ssort_sorted sumLe
      (fun a b => by
        simp only [sumLe, Bool.or_eq_true, decide_eq_true_eq]
        omega)
      (fun a b c hab hbc => by
        simp only [sumLe, decide_eq_true_eq] at *
        omega)
      pi
  · simp [List.length_take, hlen, Nat.min_comm]
  · rw [hlen]
  · intro name h
    unfold extOf
    rw [h]
  · intro st l p0 rest hp hd hm
    unfold sumStep
    rw [hp]
    simp only [hd, hm, Bool.false_eq_true, if_false, not_false_eq_true, if_true]

/-- Witness for `c8_summary` on a concrete one-file listing. -/
theorem c8_summary_witness :
    ([(ofStr ".rs", 1)] : List (L × Nat)).Perm
        (sumClassify [ofStr "-rw-r--r-- 1 u s 1 Jan 1 12:00 a.rs"]).byExt
    ∧ (([(ofStr ".rs", 1)] : List (L × Nat)).map Prod.snd).sum
        = (sumClassify [ofStr "-rw-r--r-- 1 u s 1 Jan 1 12:00 a.rs"]).files :=
  ⟨by decide, (c8_summary _ _ (by decide)).2.2.1⟩

theorem assocPush_sum (m : List (L × List L)) (k v : L) :
    ruleLocSum (assocPush m k v) = ruleLocSum m + 1 := by
  induction m with
  | nil => simp [assocPush, ruleLocSum]
  | cons p r ih =>
    obtain ⟨k', vs⟩ := p
    unfold assocPush
    by_cases hk : k' = k
    · simp [hk, ruleLocSum]
      omega
    · simp only [hk, if_false, ruleLocSum, List.map_cons, List.sum_cons] at *
      omega

theorem foldl_bind_none {α β : Type} (f : α → β → Option α) (ls : List β) :
    ls.foldl (fun acc b => acc.bind fun a => f a b) none = none := by
  induction ls with
  | nil => rfl
  | cons x t ih => simpa using ih

theorem clippyStep_tally {st : ClippySt} {p : Bool × Nat} {line : L}
    (h1 : st.currentRule.isEmpty = !p.1) (h2 : ruleLocSum st.byRule = p.2) :
    (clippyStep st line = none ∧ clippyTallyStep p line = none)
    ∨ (∃ st' p', clippyStep st line = some st' ∧ clippyTallyStep p line = some p'
        ∧ st'.currentRule.isEmpty = !p'.1 ∧ ruleLocSum st'.byRule = p'.2) := by
  unfold clippyStep clippyTallyStep
  by_cases hA : (compilingS.isPrefixOf (trimStartF line) || checkingS.isPrefixOf (trimStartF line)
      || downloadingS.isPrefixOf (trimStartF line) || downloadedS.isPrefixOf (trimStartF line)
      || finishedS.isPrefixOf (trimStartF line)) = true
  · simp only [hA, if_true]
    exact Or.inr ⟨st, p, rfl, rfl, h1, h2⟩
  · simp only [Bool.eq_false_iff.mpr hA, Bool.false_eq_true, if_false]
    by_cases hB : ((warnColonS.isPrefixOf line || warnBrS.isPrefixOf line)
        || (errColonS.isPrefixOf line || errBrS.isPrefixOf line)) = true
    · simp only [hB, if_true]
      by_cases hC : hasSub generatedS line = true ∧ hasSub warningS line = true
      · simp only [if_pos hC]
        exact Or.inr ⟨st, p, rfl, rfl, h1, h2⟩
      · simp only [if_neg hC]
        by_cases hD : hasSub abortingS line = true ∨ hasSub couldNotS line = true
        · simp only [if_pos hD]
          exact Or.inr ⟨st, p, rfl, rfl, h1, h2⟩
        · simp only [if_neg hD]
          cases hE : extractRule line (errorS.isPrefixOf line) with
          | none =>
            simp only [hE]
            exact Or.inl ⟨trivial, trivial⟩
          | some r =>
            simp only [hE]
            by_cases hF : errorS.isPrefixOf line = true
            · simp only [hF, if_true]
              exact Or.inr ⟨_, _, rfl, rfl, by simp, h2⟩
            · simp only [Bool.eq_false_iff.mpr hF, Bool.false_eq_true, if_false]
              exact Or.inr ⟨_, _, rfl, rfl, by simp, h2⟩
    · simp only [Bool.eq_false_iff.mpr hB, Bool.false_eq_true, if_false]
      by_cases hG : arrowS.isPrefixOf (trimStartF line) = true
      · simp only [hG, if_true]
        by_cases hH : st.currentRule ≠ []
        · have hp1 : p.1 = true := by
            have hne : st.currentRule.isEmpty = false := by
              cases hcr : st.currentRule with
              | nil => exact absurd hcr hH
              | cons a t => rfl
            rw [hne] at h1
            cases hp : p.1
            · rw [hp] at h1
              simp at h1
            · rfl
          simp only [if_pos hH, if_pos hp1]
          exact Or.inr ⟨_, _, rfl, rfl, h1, by
            simp only [assocPush_sum, h2]⟩
        · have hp1 : p.1 = false := by
            have hne : st.currentRule.isEmpty = true := by
              rw [not_not.mp hH]
              rfl
            rw [hne] at h1
            cases hp : p.1
            · rfl
            · rw [hp] at h1
              simp at h1
          simp only [if_neg hH, hp1, Bool.false_eq_true, if_false]
          exact Or.inr ⟨st, p, rfl, rfl, h1, h2⟩
      · simp only [Bool.eq_false_iff.mpr hG, Bool.false_eq_true, if_false]
        exact Or.inr ⟨st, p, rfl, rfl, h1, h2⟩


theorem clippyFold_tally (ls : List L) : ∀ (st : ClippySt) (p : Bool × Nat),
    st.currentRule.isEmpty = !p.1 → ruleLocSum st.byRule = p.2 →
    ∀ st', ls.foldl (fun acc line => acc.bind fun s => clippyStep s line) (some st) = some st' →
      ∃ p', ls.foldl (fun acc line => acc.bind fun q => clippyTallyStep q line) (some p) = some p'
        ∧ st'.currentRule.isEmpty = !p'.1 ∧ ruleLocSum st'.byRule = p'.2 := by
  induction ls with
  | nil =>
    intro st p h1 h2 st' hc
    simp only [List.foldl_nil, Option.some.injEq] at hc
    exact ⟨p, rfl, hc ▸ h1, hc ▸ h2⟩
  | cons l t ih =>
    intro st p h1 h2 st' hc
    rw [List.foldl_cons] at hc
    simp only [Option.some_bind] at hc
    rcases @clippyStep_tally st p l h1 h2 with ⟨hn, _⟩ | ⟨st1, p1, hs1, hp1, hh1, hh2⟩
    · rw [hn, foldl_bind_none] at hc
      exact absurd hc (by simp)
    · rw [hs1] at hc
      obtain ⟨p', hfold, hr1, hr2⟩ := ih st1 p1 hh1 hh2 st' hc
      refine ⟨p', ?_, hr1, hr2⟩
      rw [List.foldl_cons]
      simp only [Option.some_bind, hp1]
      exact hfold

/-! ## Claim C6 -/

/-- Claim C6 (counterexample): the sum of the per-rule occurrence counts is
claimed to equal the `errors + warnings` totals of the header, but a warning
marker with no following `--> ` location line contributes to the warning
count and to no rule group: for a single such line the header reports
`0 errors, 1 warnings` while the rule groups are empty (sum 0). -/
theorem c6_counterexample :
    (clippyClassify (ofStr "warning: foo [r1]")).map ClippySt.warningCount = some 1
    ∧ (clippyClassify (ofStr "warning: foo [r1]")).map ClippySt.errorCount = some 0
    ∧ (clippyClassify (ofStr "warning: foo [r1]")).map (fun s => ruleLocSum s.byRule) = some 0
    ∧ filter_cargo_clippy (ofStr "warning: foo [r1]") []
      = some (ofStr "cargo clippy: 0 errors, 1 warnings" ++ ['\n'] ++ List.replicate 39 '═') :=
  ⟨by decide, by decide, by decide, by decide⟩

/-- Claim C6 (amended): the per-rule occurrence counts over all rule groups
sum to the number of `--> ` location lines attributed to an active rule (not
to `errors + warnings`), and the rendered groups are sorted by non-increasing
occurrence count for every map iteration order. -/
theorem c6_rule_group_sums (out : L) (st : ClippySt) (pi : List (L × List L))
    (hcl : clippyClassify out = some st) (hperm : pi.Perm st.byRule) :
    (∃ b : Bool, clippyLocTally out = some (b, ruleLocSum pi))
    ∧ (clippySort pi).Pairwise (fun a b => clippyLe a b = true) := by
  constructor
  · have hfold := clippyFold_tally (rustLines out) clippyInit (false, 0) rfl rfl st hcl
    obtain ⟨p', hp', _, h2⟩ := hfold
    refine ⟨p'.1, ?_⟩
    have hsum : ruleLocSum pi = ruleLocSum st.byRule := (hperm.map _).sum_eq
    rw [clippyLocTally, hp', hsum, h2]
  · exact ssort_sorted clippyLe
      (fun a b => by
        simp only [clippyLe, Bool.or_eq_true, decide_eq_true_eq]
        omega)
      (fun a b c hab hbc => by
        simp only [clippyLe, decide_eq_true_eq] at *
        omega)
      pi

/-- Witness for `c6_rule_group_sums` at a one-warning, one-location input. -/
theorem c6_rule_group_sums_witness :
    (∃ b : Bool, clippyLocTally (ofStr "warning: a [r1]\n --> f1")
        = some (b, ruleLocSum [(ofStr "r1", [ofStr "f1"])]))
    ∧ (clippySort [(ofStr "r1", [ofStr "f1"])]).Pairwise (fun a b => clippyLe a b = true) :=
  c6_rule_group_sums _ ⟨[(ofStr "r1", [ofStr "f1"])], 0, 1, ofStr "r1"⟩ _ (by decide) (by decide)

/-! ## Claim C9 -/

/-- Claim C9 (counterexample): the grouped output is claimed to be
deterministic with a fixed first-seen tie order independent of hash-map
iteration order, but the renderer stably sorts whatever iteration order the
map yields: with two rules tied at one location each, two legitimate
iteration orders (both permutations of the insertion-ordered grouping)
produce different outputs. -/
theorem c9_counterexample :
    filter_cargo_clippy (ofStr "warning: a [r1]\n --> f1\nwarning: b [r2]\n --> f2")
        [(ofStr "r1", [ofStr "f1"]), (ofStr "r2", [ofStr "f2"])]
      ≠ filter_cargo_clippy (ofStr "warning: a [r1]\n --> f1\nwarning: b [r2]\n --> f2")
        [(ofStr "r2", [ofStr "f2"]), (ofStr "r1", [ofStr "f1"])]
    ∧ clippyClassify (ofStr "warning: a [r1]\n --> f1\nwarning: b [r2]\n --> f2")
      = some ⟨[(ofStr "r1", [ofStr "f1"]), (ofStr "r2", [ofStr "f2"])], 0, 2, ofStr "r2"⟩
    ∧ ([(ofStr "r2", [ofStr "f2"]), (ofStr "r1", [ofStr "f1"])] : List (L × List L)).Perm
        [(ofStr "r1", [ofStr "f1"]), (ofStr "r2", [ofStr "f2"])] :=
  ⟨by decide, by decide, by decide⟩

/-- Claim C9 (amended): for a fixed iteration order the renderer is a
function of the input (equal orders give equal output), and across iteration
orders the rendered group sequence is canonical only up to permutation: any
two iteration orders of the grouping map yield sorted group lists that are
permutations of each other, the order of count-ties following the iteration
order rather than a fixed first-seen order. -/
theorem c9_determinism (out : L) (st : ClippySt) (pi1 pi2 : List (L × List L))
    (_hcl : clippyClassify out = some st)
    (h1 : pi1.Perm st.byRule) (h2 : pi2.Perm st.byRule) :
    (clippySort pi1).Perm (clippySort pi2)
    ∧ (pi1 = pi2 → filter_cargo_clippy out pi1 = filter_cargo_clippy out pi2) := by
  constructor
  · exact ((ssort_perm clippyLe pi1).trans (h1.trans h2.symm)).trans
      (ssort_perm clippyLe pi2).symm
  · intro he
    rw [he]

/-- Witness for `c9_determinism` at the tied two-rule input. -/
theorem c9_determinism_witness :
    (clippySort [(ofStr "r1", [ofStr "f1"]), (ofStr "r2", [ofStr "f2"])]).Perm
      (clippySort [(ofStr "r2", [ofStr "f2"]), (ofStr "r1", [ofStr "f1"])])
    ∧ ([(ofStr "r1", [ofStr "f1"]), (ofStr "r2", [ofStr "f2"])]
          = ([(ofStr "r2", [ofStr "f2"]), (ofStr "r1", [ofStr "f1"])] : List (L × List L)) →
        filter_cargo_clippy (ofStr "warning: a [r1]\n --> f1\nwarning: b [r2]\n --> f2")
            [(ofStr "r1", [ofStr "f1"]), (ofStr "r2", [ofStr "f2"])]
          = filter_cargo_clippy (ofStr "warning: a [r1]\n --> f1\nwarning: b [r2]\n --> f2")
            [(ofStr "r2", [ofStr "f2"]), (ofStr "r1", [ofStr "f1"])]) :=
  c9_determinism _ ⟨[(ofStr "r1", [ofStr "f1"]), (ofStr "r2", [ofStr "f2"])], 0, 2, ofStr "r2"⟩
    _ _ (by decide) (by decide) (by decide)

theorem tok_trimStart_mono {tok l' l : L} (h : l' <+: l)
    (htok : tok.isPrefixOf (trimStartF l') = true) : tok.isPrefixOf (trimStartF l) = true :=
  isPrefixOf_eq_true_iff.mpr ((isPrefixOf_eq_true_iff.mp htok).trans (trimStartF_prefix_mono h))

theorem tok_false_of_pref {tok l' l : L} (h : l' <+: l)
    (hf : tok.isPrefixOf (trimStartF l) = false) : tok.isPrefixOf (trimStartF l') = false := by
  by_cases hx : tok.isPrefixOf (trimStartF l') = true
  · rw [tok_trimStart_mono h hx] at hf
    exact absurd hf (by simp)
  · exact Bool.eq_false_iff.mpr hx

theorem goodB_eq_true_iff {l : L} : goodB l = true
    ↔ compilingS.isPrefixOf (trimStartF l) = false
      ∧ downloadingS.isPrefixOf (trimStartF l) = false
      ∧ downloadedS.isPrefixOf (trimStartF l) = false
      ∧ finishedS.isPrefixOf (trimStartF l) = false := by
  unfold goodB isProgHead
  cases compilingS.isPrefixOf (trimStartF l) <;>
    cases downloadingS.isPrefixOf (trimStartF l) <;>
    cases downloadedS.isPrefixOf (trimStartF l) <;>
    cases finishedS.isPrefixOf (trimStartF l) <;> simp

theorem goodB_pre {l' l : L} (h : l' <+: l) (hg : goodB l = true) : goodB l' = true := by
  rw [goodB_eq_true_iff] at hg ⊢
  exact ⟨tok_false_of_pref h hg.1, tok_false_of_pref h hg.2.1,
    tok_false_of_pref h hg.2.2.1, tok_false_of_pref h hg.2.2.2⟩

theorem goodB_ws {a : Char} {l : L} (ha : isWs a = true) : goodB (a :: l) = goodB l := by
  unfold goodB isProgHead
  rw [trimStartF_cons_ws ha]

theorem goodT_eq_true_iff {l : L} : goodT l = true
    ↔ compilingS.isPrefixOf (trimStartF l) = false := by
  unfold goodT
  cases compilingS.isPrefixOf (trimStartF l) <;> simp

theorem goodT_pre {l' l : L} (h : l' <+: l) (hg : goodT l = true) : goodT l' = true := by
  rw [goodT_eq_true_iff] at hg ⊢
  exact tok_false_of_pref h hg

theorem goodT_ws {a : Char} {l : L} (ha : isWs a = true) : goodT (a :: l) = goodT l := by
  unfold goodT
  rw [trimStartF_cons_ws ha]

theorem goodB_head {c : Char} {t : L} (hws : isWs c = false) (hC : c ≠ 'C') (hD : c ≠ 'D')
    (hF : c ≠ 'F') : goodB (c :: t) = true := by
  rw [goodB_eq_true_iff, trimStartF_cons_not_ws hws]
  exact ⟨isPrefixOf_false_of_head_ne (show compilingS.head? = some 'C' by decide) rfl
      (Ne.symm hC),
    isPrefixOf_false_of_head_ne (show downloadingS.head? = some 'D' by decide) rfl (Ne.symm hD),
    isPrefixOf_false_of_head_ne (show downloadedS.head? = some 'D' by decide) rfl (Ne.symm hD),
    isPrefixOf_false_of_head_ne (show finishedS.head? = some 'F' by decide) rfl (Ne.symm hF)⟩

theorem goodT_head {c : Char} {t : L} (hws : isWs c = false) (hC : c ≠ 'C') :
    goodT (c :: t) = true := by
  rw [goodT_eq_true_iff, trimStartF_cons_not_ws hws]
  exact isPrefixOf_false_of_head_ne (show compilingS.head? = some 'C' by decide) rfl (Ne.symm hC)

theorem decimalCore_mem : ∀ (fuel n : Nat) (c : Char), c ∈ decimalCore fuel n →
    ∃ k, k < 10 ∧ c = digitChar k := by
  intro fuel
  induction fuel with
  | zero => intro n c hc; simp [decimalCore] at hc
  | succ f ih =>
    intro n c hc
    unfold decimalCore at hc
    by_cases h : n < 10
    · rw [if_pos h] at hc
      simp at hc
      exact ⟨n, h, hc⟩
    · rw [if_neg h] at hc
      rcases List.mem_append.mp hc with h1 | h1
      · exact ih _ c h1
      · simp at h1
        exact ⟨n % 10, Nat.mod_lt _ (by omega), h1⟩

theorem digit_props (k : Nat) (h : k < 10) :
    isWs (digitChar k) = false ∧ digitChar k ≠ '\n' ∧ digitChar k ≠ 'C' := by
  interval_cases k <;> exact ⟨by decide, by decide, by decide⟩

theorem decimal_no_nl (n : Nat) : '\n' ∉ decimal n := by
  intro h
  obtain ⟨k, hk, he⟩ := decimalCore_mem _ _ _ h
  exact (digit_props k hk).2.1 he.symm

theorem decimal_ne_nil (n : Nat) : decimal n ≠ [] := by
  unfold decimal decimalCore
  by_cases h : n < 10
  · simp [h]
  · simp [h]

theorem splitNl_append_no_nl {a : L} (ha : '\n' ∉ a) : ∀ u : L,
    splitNl (a ++ u) = (a ++ (splitNl u).head (splitNl_ne_nil u)) :: (splitNl u).tail := by
  induction a with
  | nil =>
    intro u
    simp only [List.nil_append]
    exact (List.head_cons_tail _ _).symm
  | cons c a' ih =>
    intro u
    have hc : ¬c = '\n' := fun hh => ha (hh ▸ List.mem_cons_self c a')
    have ha' : '\n' ∉ a' := fun hh => ha (List.mem_cons_of_mem c hh)
    rw [List.cons_append, splitNl_cons_of hc (ih ha' u)]
    simp

theorem splitNl_joinNl : ∀ {b : List L}, (∀ l ∈ b, '\n' ∉ l) →
    splitNl (joinNl b) = if b = [] then [[]] else b := by
  intro b
  induction b with
  | nil => intro _; rfl
  | cons x xs ih =>
    intro h
    cases xs with
    | nil =>
      simp only [joinNl, joinSep, if_neg (List.cons_ne_nil x [])]
      exact splitNl_of_no_nl (h x (List.mem_cons_self x []))
    | cons y r =>
      have hx : '\n' ∉ x := h x (List.mem_cons_self x _)
      have hxs : ∀ l ∈ y :: r, '\n' ∉ l := fun l hl => h l (List.mem_cons_of_mem x hl)
      have hj : joinNl (x :: y :: r) = x ++ '\n' :: joinNl (y :: r) := by
        simp [joinNl, joinSep]
      rw [hj, splitNl_append_nl, splitNl_of_no_nl hx, ih hxs,
        if_neg (List.cons_ne_nil y r)]
      simp

theorem chunksGood_append_nl (good : L → Bool) {a u : L}
    (ha : ∀ c ∈ splitNl a, good c = true) (hu : ∀ c ∈ splitNl u, good c = true) :
    ∀ c ∈ splitNl (a ++ '\n' :: u), good c = true := by
  rw [splitNl_append_nl]
  intro c hc
  rcases List.mem_append.mp hc with h | h
  · exact ha c h
  · exact hu c h

theorem chunksGood_single (good : L → Bool) {u : L} (hnl : '\n' ∉ u) (hg : good u = true) :
    ∀ c ∈ splitNl u, good c = true := by
  rw [splitNl_of_no_nl hnl]
  intro c hc
  rw [List.mem_singleton] at hc
  rw [hc]
  exact hg

theorem rustLines_single {u : L} (hnl : '\n' ∉ u) (hne : u ≠ []) :
    rustLines u = [stripCr u] := by
  unfold rustLines
  rw [splitNl_of_no_nl hnl]
  simp [hne]

theorem unlines_cons (l : L) (r : List L) : unlines (l :: r) = l ++ '\n' :: unlines r := by
  simp [unlines]

theorem unlines_endNl : ∀ ls : List L, unlines ls = [] ∨ ∃ a, unlines ls = a ++ ['\n'] := by
  intro ls
  induction ls with
  | nil => exact Or.inl rfl
  | cons l r ih =>
    right
    rcases ih with h | ⟨a, h⟩
    · exact ⟨l, by rw [unlines_cons, h]⟩
    · exact ⟨l ++ '\n' :: a, by rw [unlines_cons, h]; simp⟩

theorem chunksGood_append_endNl (good : L → Bool) {a u : L}
    (hend : a = [] ∨ ∃ a', a = a' ++ ['\n'])
    (ha : ∀ c ∈ splitNl a, good c = true) (hu : ∀ c ∈ splitNl u, good c = true) :
    ∀ c ∈ splitNl (a ++ u), good c = true := by
  rcases hend with rfl | ⟨a', rfl⟩
  · simpa using hu
  · have hs : (a' ++ ['\n']) ++ u = a' ++ '\n' :: u := by simp
    rw [hs]
    apply chunksGood_append_nl good _ hu
    intro c hc
    apply ha
    have hsp : splitNl (a' ++ ['\n']) = splitNl a' ++ splitNl ([] : L) := by
      have h2 : (a' ++ ['\n'] : L) = a' ++ '\n' :: [] := by simp
      rw [h2, splitNl_append_nl]
    rw [hsp]
    exact List.mem_append_left _ hc

theorem unlines_chunksGood (good : L → Bool) (hnil : good [] = true) :
    ∀ (ls : List L), (∀ l ∈ ls, good l = true ∧ '\n' ∉ l) →
    ∀ c ∈ splitNl (unlines ls), good c = true := by
  intro ls
  induction ls with
  | nil =>
    intro _ c hc
    simp only [unlines, List.map_nil, List.flatten_nil, splitNl, List.mem_singleton] at hc
    rw [hc]
    exact hnil
  | cons l r ih =>
    intro h c hc
    rw [unlines_cons] at hc
    exact chunksGood_append_nl good
      (chunksGood_single good (h l (List.mem_cons_self l r)).2 (h l (List.mem_cons_self l r)).1)
      (ih (fun x hx => h x (List.mem_cons_of_mem l hx))) c hc

theorem truncateB_pref (s : L) (n : Nat) : truncateB s n <+: s := by
  unfold truncateB
  split
  · exact List.prefix_refl s
  · exact List.take_prefix n s

theorem chunksGood_of_pref (good : L → Bool)
    (hpre : ∀ l' l : L, l' <+: l → good l = true → good l' = true)
    {t s : L} (h : t <+: s) (hs : ∀ c ∈ splitNl s, good c = true) :
    ∀ c ∈ splitNl t, good c = true := by
  intro c hc
  obtain ⟨c', hc', hp⟩ := chunks_pref h c hc
  exact hpre c c' hp (hs c' hc')

theorem buildBodyAux_chunksGood :
    ∀ (bs : List (List L)), (∀ b ∈ bs, ∀ l ∈ b, goodB l = true ∧ '\n' ∉ l) →
    ∀ (i total : Nat) (u : L), (∀ c ∈ splitNl u, goodB c = true) →
    ∀ c ∈ splitNl (buildBodyAux bs i total ++ u), goodB c = true := by
  intro bs
  induction bs with
  | nil => intro _ i total u hu; simpa using hu
  | cons b rest ih =>
    intro h i total u hu
    have hb : ∀ l ∈ b, goodB l = true ∧ '\n' ∉ l :=
      fun l hl => h b (List.mem_cons_self b rest) l hl
    have hshape : buildBodyAux (b :: rest) i total ++ u
        = joinNl b ++ '\n' :: ((if i < total - 1 then (['\n'] : L) else [])
            ++ (buildBodyAux rest (i + 1) total ++ u)) := by
      simp [buildBodyAux, List.append_assoc]
    rw [hshape]
    apply chunksGood_append_nl
    · intro c hc
      rw [splitNl_joinNl (fun l hl => (hb l hl).2)] at hc
      by_cases hbe : b = []
      · rw [if_pos hbe, List.mem_singleton] at hc
        rw [hc]
        decide
      · rw [if_neg hbe] at hc
        exact (hb c hc).1
    · have hrest : ∀ c ∈ splitNl (buildBodyAux rest (i + 1) total ++ u), goodB c = true :=
        ih (fun x hx l hl => h x (List.mem_cons_of_mem b hx) l hl) (i + 1) total u hu
      by_cases hi : i < total - 1
      · rw [if_pos hi]
        show ∀ c ∈ splitNl (([] : L) ++ '\n' :: (buildBodyAux rest (i + 1) total ++ u)),
          goodB c = true
        exact chunksGood_append_nl goodB (by intro c hc; simp [splitNl] at hc; rw [hc]; decide)
          hrest
      · rw [if_neg hi]
        simpa using hrest

theorem bor_false {a b : Bool} (h : (a || b) = false) : a = false ∧ b = false := by
  rcases a <;> rcases b <;> simp_all

theorem ite_flush_errors_good {st : BuildSt} {c : Prop} [Decidable c]
    (hf : ∀ b ∈ st.errors, ∀ l ∈ b, goodB l = true ∧ '\n' ∉ l)
    (hc : ∀ l ∈ st.currentError, goodB l = true ∧ '\n' ∉ l) :
    ∀ b ∈ (if c then (⟨st.errors ++ [st.currentError], st.warnings, st.errorCount,
        st.compiled, st.inError, []⟩ : BuildSt) else st).errors,
      ∀ l ∈ b, goodB l = true ∧ '\n' ∉ l := by
  split
  · intro b hb l hl
    rcases List.mem_append.mp hb with hbb | hbb
    · exact hf b hbb l hl
    · rw [List.mem_singleton] at hbb
      exact hc l (hbb ▸ hl)
  · exact hf

theorem ite_flush_current_good {st : BuildSt} {c : Prop} [Decidable c]
    (hc : ∀ l ∈ st.currentError, goodB l = true ∧ '\n' ∉ l)
    {line : L} (hgood : goodB line = true) (hline : '\n' ∉ line) :
    ∀ l ∈ (if c then (⟨st.errors ++ [st.currentError], st.warnings, st.errorCount,
        st.compiled, st.inError, []⟩ : BuildSt) else st).currentError ++ [line],
      goodB l = true ∧ '\n' ∉ l := by
  split
  · intro l hl
    have hll : l = line := by simpa using hl
    exact hll ▸ ⟨hgood, hline⟩
  · intro l hl
    rcases List.mem_append.mp hl with h | h
    · exact hc l h
    · rw [List.mem_singleton] at h
      exact h ▸ ⟨hgood, hline⟩

theorem buildStep_linesGood {st : BuildSt} {line : L}
    (hf : ∀ b ∈ st.errors, ∀ l ∈ b, goodB l = true ∧ '\n' ∉ l)
    (hc : ∀ l ∈ st.currentError, goodB l = true ∧ '\n' ∉ l)
    (hline : '\n' ∉ line) :
    (∀ b ∈ (buildStep st line).errors, ∀ l ∈ b, goodB l = true ∧ '\n' ∉ l)
    ∧ (∀ l ∈ (buildStep st line).currentError, goodB l = true ∧ '\n' ∉ l) := by
  unfold buildStep
  split
  · exact ⟨hf, hc⟩
  · split
    · exact ⟨hf, hc⟩
    · split
      · exact ⟨hf, hc⟩
      · split
        · rename_i h1 h2 h3 h4
          split
          · exact ⟨hf, hc⟩
          · have hgood : goodB line = true := by
              rw [goodB_eq_true_iff]
              obtain ⟨hd1, hd2⟩ := bor_false (Bool.eq_false_iff.mpr h2)
              exact ⟨Bool.eq_false_iff.mpr h1, hd1, hd2, Bool.eq_false_iff.mpr h3⟩
            exact ⟨ite_flush_errors_good hf hc, ite_flush_current_good hc hgood hline⟩
        · split
          · exact ⟨hf, hc⟩
          · split
            · rename_i h1 h2 h3 h4 h5 h6
              have hgood : goodB line = true := by
                rw [goodB_eq_true_iff]
                obtain ⟨hd1, hd2⟩ := bor_false (Bool.eq_false_iff.mpr h2)
                exact ⟨Bool.eq_false_iff.mpr h1, hd1, hd2, Bool.eq_false_iff.mpr h3⟩
              exact ⟨ite_flush_errors_good hf hc, ite_flush_current_good hc hgood hline⟩
            · split
              · rename_i h1 h2 h3 h4 h5 h6 h7
                have hgood : goodB line = true := by
                  rw [goodB_eq_true_iff]
                  obtain ⟨hd1, hd2⟩ := bor_false (Bool.eq_false_iff.mpr h2)
                  exact ⟨Bool.eq_false_iff.mpr h1, hd1, hd2, Bool.eq_false_iff.mpr h3⟩
                split
                · refine ⟨?_, ?_⟩
                  · intro b hb l hl
                    rcases List.mem_append.mp hb with hbb | hbb
                    · exact hf b hbb l hl
                    · rw [List.mem_singleton] at hbb
                      exact hc l (hbb ▸ hl)
                  · intro l hl
                    simp at hl
                · refine ⟨hf, ?_⟩
                  intro l hl
                  rcases List.mem_append.mp hl with h | h
                  · exact hc l h
                  · rw [List.mem_singleton] at h
                    exact h ▸ ⟨hgood, hline⟩
              · exact ⟨hf, hc⟩

theorem buildFold_linesGood (ls : List L) : ∀ st : BuildSt,
    (∀ b ∈ st.errors, ∀ l ∈ b, goodB l = true ∧ '\n' ∉ l) →
    (∀ l ∈ st.currentError, goodB l = true ∧ '\n' ∉ l) →
    (∀ l ∈ ls, '\n' ∉ l) →
    (∀ b ∈ (ls.foldl buildStep st).errors, ∀ l ∈ b, goodB l = true ∧ '\n' ∉ l)
    ∧ (∀ l ∈ (ls.foldl buildStep st).currentError, goodB l = true ∧ '\n' ∉ l) := by
  induction ls with
  | nil => intro st hf hc _; exact ⟨hf, hc⟩
  | cons x t ih =>
    intro st hf hc hnl
    rw [List.foldl_cons]
    have hstep := buildStep_linesGood hf hc (hnl x (List.mem_cons_self x t))
    exact ih (buildStep st x) hstep.1 hstep.2 (fun l hl => hnl l (List.mem_cons_of_mem x hl))

theorem buildBlocks_linesGood (out : L) :
    ∀ b ∈ buildBlocks out, ∀ l ∈ b, goodB l = true ∧ '\n' ∉ l := by
  have h := buildFold_linesGood (rustLines out) buildInit
    (by intro b hb; simp [buildInit] at hb)
    (by intro l hl; simp [buildInit] at hl)
    (fun l hl => rustLines_no_nl hl)
  intro b hb
  unfold buildBlocks buildFinal at hb
  revert hb
  split
  · intro hb
    rcases List.mem_append.mp hb with h1 | h1
    · exact h.1 b h1
    · rw [List.mem_singleton] at h1
      intro l hl
      exact h.2 l (h1 ▸ hl)
  · intro hb
    exact h.1 b hb

theorem buildSuccess_no_nl (n : Nat) : '\n' ∉ buildSuccess n := by
  unfold buildSuccess
  intro h
  rcases List.mem_append.mp h with h1 | h1
  · rcases List.mem_append.mp h1 with h2 | h2
    · revert h2; decide
    · exact decimal_no_nl n h2
  · revert h1; decide

theorem buildSuccess_ne_nil (n : Nat) : buildSuccess n ≠ [] := by
  intro h
  have hl := congrArg List.length h
  simp only [buildSuccess, List.length_append, List.length_nil] at hl
  have h1 : (ofStr "✓ cargo build (").length = 15 := by decide
  omega

theorem buildSuccess_good (n : Nat) : goodB (buildSuccess n) = true := by
  show goodB ('✓' :: (ofStr " cargo build (" ++ decimal n ++ ofStr " crates compiled)")) = true
  exact goodB_head (by decide) (by decide) (by decide) (by decide)

theorem buildOverflow_chunksGood (n : Nat) : ∀ c ∈ splitNl (buildOverflow n), goodB c = true := by
  unfold buildOverflow
  split
  · have hshape : (['\n'] : L) ++ ofStr "... +" ++ decimal (n - 15) ++ ofStr " more issues"
        ++ ['\n']
        = ([] : L) ++ '\n' :: ((ofStr "... +" ++ decimal (n - 15) ++ ofStr " more issues")
            ++ '\n' :: ([] : L)) := by
      simp
    rw [hshape]
    apply chunksGood_append_nl
    · intro c hc
      simp only [splitNl, List.mem_singleton] at hc
      rw [hc]; decide
    · apply chunksGood_append_nl
      · apply chunksGood_single
        · intro h
          rcases List.mem_append.mp h with h1 | h1
          · rcases List.mem_append.mp h1 with h2 | h2
            · revert h2; decide
            · exact decimal_no_nl _ h2
          · revert h1; decide
        · show goodB ('.' :: (ofStr ".. +" ++ decimal (n - 15) ++ ofStr " more issues")) = true
          exact goodB_head (by decide) (by decide) (by decide) (by decide)
      · intro c hc
        simp only [splitNl, List.mem_singleton] at hc
        rw [hc]; decide
  · intro c hc
    simp only [splitNl, List.mem_singleton] at hc
    rw [hc]; decide

theorem buildHeader_no_nl (st : BuildSt) : '\n' ∉ ofStr "cargo build: " ++ decimal st.errorCount
    ++ ofStr " errors, " ++ decimal st.warnings ++ ofStr " warnings ("
    ++ decimal st.compiled ++ ofStr " crates)" := by
  intro h
  rcases List.mem_append.mp h with h1 | h1
  on_goal 2 => revert h1; decide
  rcases List.mem_append.mp h1 with h2 | h2
  on_goal 2 => exact decimal_no_nl _ h2
  rcases List.mem_append.mp h2 with h3 | h3
  on_goal 2 => revert h3; decide
  rcases List.mem_append.mp h3 with h4 | h4
  on_goal 2 => exact decimal_no_nl _ h4
  rcases List.mem_append.mp h4 with h5 | h5
  on_goal 2 => revert h5; decide
  rcases List.mem_append.mp h5 with h6 | h6
  on_goal 2 => exact decimal_no_nl _ h6
  revert h6; decide

theorem filter_build_linesGood (out : L) :
    ∀ l ∈ rustLines (filter_cargo_build out), goodB l = true := by
  intro l hl
  simp only [filter_cargo_build] at hl
  by_cases hsucc : (buildClassify out).errorCount = 0 ∧ (buildClassify out).warnings = 0
  · rw [if_pos hsucc] at hl
    rw [rustLines_single (buildSuccess_no_nl _) (buildSuccess_ne_nil _),
      List.mem_singleton] at hl
    subst hl
    exact goodB_pre (stripCr_pref _) (buildSuccess_good _)
  · rw [if_neg hsucc] at hl
    refine chunksGood_rustLines_trim goodB (fun l' l2 h hg => goodB_pre h hg)
      (fun a l2 ha => goodB_ws ha) _ ?_ l hl
    have hshape : buildHeader (buildClassify out) ++ sepLineS
        ++ buildBody (buildFinal (buildClassify out)) (buildFinal (buildClassify out)).length
        ++ buildOverflow (buildFinal (buildClassify out)).length
        = (ofStr "cargo build: " ++ decimal (buildClassify out).errorCount
            ++ ofStr " errors, " ++ decimal (buildClassify out).warnings
            ++ ofStr " warnings (" ++ decimal (buildClassify out).compiled
            ++ ofStr " crates)")
          ++ '\n' :: (List.replicate 39 '═'
              ++ '\n' :: (buildBody (buildFinal (buildClassify out))
                    (buildFinal (buildClassify out)).length
                  ++ buildOverflow (buildFinal (buildClassify out)).length)) := by
      unfold buildHeader sepLineS
      simp [List.append_assoc]
    rw [hshape]
    apply chunksGood_append_nl
    · apply chunksGood_single
      · exact buildHeader_no_nl _
      · show goodB ('c' :: (ofStr "argo build: " ++ decimal (buildClassify out).errorCount
          ++ ofStr " errors, " ++ decimal (buildClassify out).warnings
          ++ ofStr " warnings (" ++ decimal (buildClassify out).compiled
          ++ ofStr " crates)")) = true
        exact goodB_head (by decide) (by decide) (by decide) (by decide)
    · apply chunksGood_append_nl
      · apply chunksGood_single
        · decide
        · decide
      · unfold buildBody
        exact buildBodyAux_chunksGood _
          (fun b hb => buildBlocks_linesGood out b (List.take_subset 15 _ hb)) 0 _ _
          (buildOverflow_chunksGood _)

theorem testSectionStep_linesGood {st : TestSt} {line : L}
    (hf : ∀ b ∈ st.failures, ∀ l ∈ b, goodT l = true ∧ '\n' ∉ l)
    (hs : ∀ l ∈ st.summaryLines, goodT l = true ∧ '\n' ∉ l)
    (hc : ∀ l ∈ st.currentFailure, goodT l = true ∧ '\n' ∉ l)
    (hq : goodT line = true ∧ '\n' ∉ line) :
    (∀ b ∈ (testSectionStep st line).failures, ∀ l ∈ b, goodT l = true ∧ '\n' ∉ l)
    ∧ (∀ l ∈ (testSectionStep st line).summaryLines, goodT l = true ∧ '\n' ∉ l)
    ∧ (∀ l ∈ (testSectionStep st line).currentFailure, goodT l = true ∧ '\n' ∉ l) := by
  unfold testSectionStep
  split
  · split
    · refine ⟨hf, ?_, hc⟩
      intro l hl
      rcases List.mem_append.mp hl with h | h
      · exact hs l h
      · rw [List.mem_singleton] at h
        exact h ▸ hq
    · split
      · refine ⟨hf, hs, ?_⟩
        intro l hl
        rcases List.mem_append.mp hl with h | h
        · exact hc l h
        · rw [List.mem_singleton] at h
          exact h ▸ hq
      · split
        · refine ⟨?_, hs, ?_⟩
          · intro b hb l hl
            rcases List.mem_append.mp hb with h | h
            · exact hf b h l hl
            · rw [List.mem_singleton] at h
              exact hc l (h ▸ hl)
          · intro l hl
            simp at hl
        · split
          · refine ⟨hf, hs, ?_⟩
            intro l hl
            rcases List.mem_append.mp hl with h | h
            · exact hc l h
            · rw [List.mem_singleton] at h
              exact h ▸ hq
          · exact ⟨hf, hs, hc⟩
  · exact ⟨hf, hs, hc⟩

theorem testStep_linesGood {st : TestSt} {line : L}
    (hf : ∀ b ∈ st.failures, ∀ l ∈ b, goodT l = true ∧ '\n' ∉ l)
    (hs : ∀ l ∈ st.summaryLines, goodT l = true ∧ '\n' ∉ l)
    (hc : ∀ l ∈ st.currentFailure, goodT l = true ∧ '\n' ∉ l)
    (hline : '\n' ∉ line) :
    (∀ b ∈ (testStep st line).failures, ∀ l ∈ b, goodT l = true ∧ '\n' ∉ l)
    ∧ (∀ l ∈ (testStep st line).summaryLines, goodT l = true ∧ '\n' ∉ l)
    ∧ (∀ l ∈ (testStep st line).currentFailure, goodT l = true ∧ '\n' ∉ l) := by
  unfold testStep
  split
  · exact ⟨hf, hs, hc⟩
  · split
    · exact ⟨hf, hs, hc⟩
    · split
      · exact ⟨hf, hs, hc⟩
      · rename_i h1 h2 h3
        have hgood : goodT line = true := by
          rw [goodT_eq_true_iff]
          exact (bor_false (bor_false (bor_false (Bool.eq_false_iff.mpr h1)).1).1).1
        have hq : goodT line = true ∧ '\n' ∉ line := ⟨hgood, hline⟩
        have hsec := testSectionStep_linesGood hf hs hc hq
        split
        · refine ⟨hsec.1, ?_, hsec.2.2⟩
          intro l hl
          rcases List.mem_append.mp hl with h | h
          · exact hsec.2.1 l h
          · rw [List.mem_singleton] at h
            exact h ▸ hq
        · exact hsec

theorem testFold_linesGood (ls : List L) : ∀ st : TestSt,
    (∀ b ∈ st.failures, ∀ l ∈ b, goodT l = true ∧ '\n' ∉ l) →
    (∀ l ∈ st.summaryLines, goodT l = true ∧ '\n' ∉ l) →
    (∀ l ∈ st.currentFailure, goodT l = true ∧ '\n' ∉ l) →
    (∀ l ∈ ls, '\n' ∉ l) →
    (∀ b ∈ (ls.foldl testStep st).failures, ∀ l ∈ b, goodT l = true ∧ '\n' ∉ l)
    ∧ (∀ l ∈ (ls.foldl testStep st).summaryLines, goodT l = true ∧ '\n' ∉ l)
    ∧ (∀ l ∈ (ls.foldl testStep st).currentFailure, goodT l = true ∧ '\n' ∉ l) := by
  induction ls with
  | nil => intro st hf hs hc _; exact ⟨hf, hs, hc⟩
  | cons x t ih =>
    intro st hf hs hc hnl
    rw [List.foldl_cons]
    have hstep := testStep_linesGood hf hs hc (hnl x (List.mem_cons_self x t))
    exact ih (testStep st x) hstep.1 hstep.2.1 hstep.2.2
      (fun l hl => hnl l (List.mem_cons_of_mem x hl))

theorem testClassify_linesGood (out : L) :
    (∀ b ∈ (testClassify out).failures, ∀ l ∈ b, goodT l = true ∧ '\n' ∉ l)
    ∧ (∀ l ∈ (testClassify out).summaryLines, goodT l = true ∧ '\n' ∉ l)
    ∧ (∀ l ∈ (testClassify out).currentFailure, goodT l = true ∧ '\n' ∉ l) :=
  testFold_linesGood (rustLines out) testInit
    (by intro b hb; simp [testInit] at hb)
    (by intro l hl; simp [testInit] at hl)
    (by intro l hl; simp [testInit] at hl)
    (fun l hl => rustLines_no_nl hl)

theorem testFinal_linesGood (out : L) :
    ∀ b ∈ testFinal (testClassify out), ∀ l ∈ b, goodT l = true ∧ '\n' ∉ l := by
  have h := testClassify_linesGood out
  intro b hb
  unfold testFinal at hb
  revert hb
  split
  · intro hb
    rcases List.mem_append.mp hb with h1 | h1
    · exact h.1 b h1
    · rw [List.mem_singleton] at h1
      intro l hl
      exact h.2.2 l (h1 ▸ hl)
  · intro hb
    exact h.1 b hb

theorem testBodyAux_chunksGood :
    ∀ (fs : List (List L)), (∀ b ∈ fs, ∀ l ∈ b, goodT l = true ∧ '\n' ∉ l) →
    ∀ (i : Nat) (u : L), (∀ c ∈ splitNl u, goodT c = true) →
    ∀ c ∈ splitNl (testBodyAux fs i ++ u), goodT c = true := by
  intro fs
  induction fs with
  | nil => intro _ i u hu; simpa using hu
  | cons f rest ih =>
    intro h i u hu
    have hfl : ∀ l ∈ f, goodT l = true ∧ '\n' ∉ l :=
      fun l hl => h f (List.mem_cons_self f rest) l hl
    have hshape : testBodyAux (f :: rest) i ++ u
        = ((decimal (i + 1) ++ ofStr ". ") ++ truncateB (joinNl f) 200)
            ++ '\n' :: (testBodyAux rest (i + 1) ++ u) := by
      simp [testBodyAux, List.append_assoc]
    rw [hshape]
    apply chunksGood_append_nl goodT ?_
      (ih (fun x hx l hl => h x (List.mem_cons_of_mem f hx) l hl) (i + 1) u hu)
    have hA : '\n' ∉ decimal (i + 1) ++ ofStr ". " := by
      intro hm
      rcases List.mem_append.mp hm with h1 | h1
      · exact decimal_no_nl _ h1
      · revert h1; decide
    rw [splitNl_append_no_nl hA]
    intro c hc
    rcases List.mem_cons.mp hc with rfl | hc2
    · obtain ⟨d, ds, hd⟩ : ∃ d ds, decimal (i + 1) = d :: ds := by
        cases hdm : decimal (i + 1) with
        | nil => exact absurd hdm (decimal_ne_nil _)
        | cons d ds => exact ⟨d, ds, rfl⟩
      obtain ⟨k, hk, rfl⟩ : ∃ k, k < 10 ∧ d = digitChar k :=
        decimalCore_mem (i + 1 + 1) (i + 1) d
          (show d ∈ decimal (i + 1) by rw [hd]; exact List.mem_cons_self d ds)
      rw [hd]
      exact goodT_head (digit_props k hk).1 (digit_props k hk).2.2
    · have htr : ∀ c' ∈ splitNl (truncateB (joinNl f) 200), goodT c' = true := by
        apply chunksGood_of_pref goodT (fun a b hp hg => goodT_pre hp hg)
          (truncateB_pref _ _)
        intro c' hc'
        rw [splitNl_joinNl (fun l hl => (hfl l hl).2)] at hc'
        by_cases hfe : f = []
        · rw [if_pos hfe, List.mem_singleton] at hc'
          rw [hc']; decide
        · rw [if_neg hfe] at hc'
          exact (hfl c' hc').1
      exact htr c (List.mem_of_mem_tail hc2)

theorem testFailuresRender_chunksGood {fs : List (List L)}
    (hfs : ∀ b ∈ fs, ∀ l ∈ b, goodT l = true ∧ '\n' ∉ l) (u : L)
    (hu : ∀ c ∈ splitNl u, goodT c = true) :
    ∀ c ∈ splitNl (testFailuresRender fs ++ u), goodT c = true := by
  have hshape : testFailuresRender fs ++ u
      = (ofStr "FAILURES (" ++ decimal fs.length ++ ofStr "):")
        ++ '\n' :: (List.replicate 39 '═'
          ++ '\n' :: (testBodyAux (fs.take 10) 0
            ++ ((if 10 < fs.length then
                  ['\n'] ++ ofStr "... +" ++ decimal (fs.length - 10)
                    ++ ofStr " more failures" ++ ['\n']
                else []) ++ ('\n' :: u)))) := by
    unfold testFailuresRender sepLineS
    simp [List.append_assoc]
  rw [hshape]
  apply chunksGood_append_nl
  · apply chunksGood_single
    · intro hm
      rcases List.mem_append.mp hm with h1 | h1
      on_goal 2 => revert h1; decide
      rcases List.mem_append.mp h1 with h2 | h2
      · revert h2; decide
      · exact decimal_no_nl _ h2
    · show goodT ('F' :: (ofStr "AILURES (" ++ decimal fs.length ++ ofStr "):")) = true
      exact goodT_head (by decide) (by decide)
  · apply chunksGood_append_nl
    · apply chunksGood_single
      · decide
      · decide
    · apply testBodyAux_chunksGood (fs.take 10)
        (fun b hb => hfs b (List.take_subset 10 fs hb)) 0
      by_cases h10 : 10 < fs.length
      · rw [if_pos h10]
        have hsh2 : (['\n'] : L) ++ ofStr "... +" ++ decimal (fs.length - 10)
              ++ ofStr " more failures" ++ ['\n'] ++ ('\n' :: u)
            = ([] : L) ++ '\n' :: ((ofStr "... +" ++ decimal (fs.length - 10)
                ++ ofStr " more failures") ++ '\n' :: (([] : L) ++ '\n' :: u)) := by
          simp
        rw [hsh2]
        apply chunksGood_append_nl
        · intro c hc
          simp only [splitNl, List.mem_singleton] at hc
          rw [hc]; decide
        · apply chunksGood_append_nl
          · apply chunksGood_single
            · intro hm
              rcases List.mem_append.mp hm with h1 | h1
              on_goal 2 => revert h1; decide
              rcases List.mem_append.mp h1 with h2 | h2
              · revert h2; decide
              · exact decimal_no_nl _ h2
            · show goodT ('.' :: (ofStr ".. +" ++ decimal (fs.length - 10)
                ++ ofStr " more failures")) = true
              exact goodT_head (by decide) (by decide)
          · apply chunksGood_append_nl
            · intro c hc
              simp only [splitNl, List.mem_singleton] at hc
              rw [hc]; decide
            · exact hu
      · rw [if_neg h10]
        simp only [List.nil_append]
        show ∀ c ∈ splitNl (([] : L) ++ '\n' :: u), goodT c = true
        apply chunksGood_append_nl
        · intro c hc
          simp only [splitNl, List.mem_singleton] at hc
          rw [hc]; decide
        · exact hu

theorem testFailuresRender_endNl (fs : List (List L)) :
    ∃ a, testFailuresRender fs = a ++ ['\n'] :=
  ⟨_, rfl⟩

theorem fallback_chunksGood (out : L) : ∀ c ∈ splitNl (fallbackLines out), goodT c = true := by
  unfold fallbackLines
  apply unlines_chunksGood goodT (by decide)
  intro l hl
  have hmem : l ∈ testMeaningful out := List.drop_subset _ _ hl
  have hfil := List.of_mem_filter hmem
  simp only [decide_eq_true_eq] at hfil
  constructor
  · rw [goodT_eq_true_iff]
    exact Bool.eq_false_iff.mpr hfil.2
  · exact rustLines_no_nl (List.mem_of_mem_filter hmem)

theorem filter_test_linesGood (out : L) :
    ∀ l ∈ rustLines (filter_cargo_test out), goodT l = true := by
  intro l hl
  simp only [filter_cargo_test] at hl
  have hcl := testClassify_linesGood out
  have hfinal := testFinal_linesGood out
  by_cases hco : testFinal (testClassify out) = [] ∧ (testClassify out).summaryLines ≠ []
  · rw [if_pos hco] at hl
    refine chunksGood_rustLines_trim goodT (fun l' l2 h hg => goodT_pre h hg)
      (fun a l2 ha => goodT_ws ha) _ ?_ l hl
    apply unlines_chunksGood goodT (by decide)
    intro x hx
    rw [List.mem_map] at hx
    obtain ⟨s0, hs0, rfl⟩ := hx
    constructor
    · show goodT ('✓' :: (' ' :: s0)) = true
      exact goodT_head (by decide) (by decide)
    · intro hm
      rcases List.mem_append.mp hm with h1 | h1
      · revert h1; decide
      · exact (hcl.2.1 s0 hs0).2 h1
  · rw [if_neg hco] at hl
    refine chunksGood_rustLines_trim goodT (fun l' l2 h hg => goodT_pre h hg)
      (fun a l2 ha => goodT_ws ha) _ ?_ l hl
    have hsum : ∀ x ∈ (testClassify out).summaryLines, goodT x = true ∧ '\n' ∉ x := hcl.2.1
    have hr1 : ∀ c ∈ splitNl ((if testFinal (testClassify out) ≠ [] then
          testFailuresRender (testFinal (testClassify out)) else [])
        ++ unlines (testClassify out).summaryLines), goodT c = true := by
      by_cases hfs : testFinal (testClassify out) ≠ []
      · rw [if_pos hfs]
        exact testFailuresRender_chunksGood hfinal _
          (unlines_chunksGood goodT (by decide) _ hsum)
      · rw [if_neg hfs]
        simp only [List.nil_append]
        exact unlines_chunksGood goodT (by decide) _ hsum
    have hend : (if testFinal (testClassify out) ≠ [] then
          testFailuresRender (testFinal (testClassify out)) else [])
        ++ unlines (testClassify out).summaryLines = []
        ∨ ∃ a, (if testFinal (testClassify out) ≠ [] then
            testFailuresRender (testFinal (testClassify out)) else [])
          ++ unlines (testClassify out).summaryLines = a ++ ['\n'] := by
      rcases unlines_endNl (testClassify out).summaryLines with h | ⟨a, h⟩
      · rw [h]
        by_cases hfs : testFinal (testClassify out) ≠ []
        · rw [if_pos hfs]
          obtain ⟨a2, h2⟩ := testFailuresRender_endNl (testFinal (testClassify out))
          exact Or.inr ⟨a2, by rw [h2]; simp⟩
        · rw [if_neg hfs]
          exact Or.inl rfl
      · rw [h]
        refine Or.inr ⟨(if testFinal (testClassify out) ≠ [] then
            testFailuresRender (testFinal (testClassify out)) else []) ++ a, ?_⟩
        simp
    by_cases htr : trimF ((if testFinal (testClassify out) ≠ [] then
          testFailuresRender (testFinal (testClassify out)) else [])
        ++ unlines (testClassify out).summaryLines) = []
    · rw [if_pos htr]
      exact chunksGood_append_endNl goodT hend hr1 (fallback_chunksGood out)
    · rw [if_neg htr]
      exact hr1

/-! ## Claim C10 -/

/-- Claim C10 (counterexample): the output is claimed to contain no
tool-progress banner lines for every input, but the test filter's garbled
input fallback only excludes `Compiling` lines, so a lone `Finished dev`
input is re-emitted verbatim: the output is a line starting with `Finished`. -/
theorem c10_counterexample :
    filter_cargo_test (ofStr "Finished dev") = ofStr "Finished dev"
    ∧ finishedS.isPrefixOf (filter_cargo_test (ofStr "Finished dev")) = true
    ∧ rustLines (filter_cargo_test (ofStr "Finished dev")) = [ofStr "Finished dev"] :=
  ⟨by decide, by decide, by decide⟩

/-- Claim C10 (amended): every line of the build filter's output is free of
all four progress banners even after leading whitespace; every line of the
test filter's output is free of `Compiling` banners, but the fallback path
can re-emit `Downloading`/`Downloaded`/`Finished` lines. -/
theorem c10_no_progress_lines :
    (∀ (out : L), ∀ l ∈ rustLines (filter_cargo_build out), isProgHead l = false)
    ∧ (∀ (out : L), ∀ l ∈ rustLines (filter_cargo_test out),
        compilingS.isPrefixOf (trimStartF l) = false) := by
  constructor
  · intro out l hl
    have hg := filter_build_linesGood out l hl
    unfold goodB at hg
    exact bnot_true hg
  · intro out l hl
    have hg := filter_test_linesGood out l hl
    rw [goodT_eq_true_iff] at hg
    exact hg

/-- Witness for `c10_no_progress_lines` at concrete outputs. -/
theorem c10_no_progress_lines_witness :
    isProgHead (ofStr "✓ cargo build (0 crates compiled)") = false
    ∧ compilingS.isPrefixOf (trimStartF (ofStr "✓ test result: ok. 1 passed")) = false :=
  ⟨c10_no_progress_lines.1 [] _ (by decide),
    c10_no_progress_lines.2 (ofStr "test result: ok. 1 passed") _ (by decide)⟩
